import Mathlib

/-!
Verification development for the core of the tonweb-deno library: the
bit-string / cell / slice data model and the Bag-of-Cells (BoC) codec.

Source files are shallowly embedded:
  * `BitString` (boc/BitString.ts): a byte buffer addressed bit-by-bit,
    most-significant bit first, with a write cursor and a capacity.
    A JS `Uint8Array` is modelled as `List Nat` (reads out of bounds give
    `undefined`, whose bit test is false, hence `getD _ 0`; writes out of
    bounds are ignored, matching `List.set`).  Fallible methods (those that
    can `throw`) return `Except String _`.
  * `Slice` (boc/Slice.ts): a read-only view plus child slices.
  * `Cell` (boc/Cell.ts) and the serializer walk `treeWalk` /
    `moveToTheEnd`, and the deserializer's reference-resolution loop.

Arbitrary-precision `BN` values are modelled as `Nat` / `Int`;
`BN.toString(2).length` is modelled by `bitStrLen`.
-/

namespace TonWeb

/-- Reading of one bit of a byte array, most-significant bit first: bit `n`
lives in byte `n / 8` under mask `1 <<< (7 - n % 8)` (source `BitString.get`:
`(this.array[(n / 8) | 0] & (1 << (7 - (n % 8)))) > 0`; a missing byte reads
as `undefined`, whose masked value is 0, hence the default 0). -/
def getBit (array : List Nat) (n : Nat) : Bool :=
  Nat.testBit (array.getD (n / 8) 0) (7 - n % 8)

/-- Model of the source class `BitString`: byte buffer, write cursor
(count of bits written) and capacity in bits. -/
structure BitString where
  array : List Nat
  cursor : Nat
  length : Nat
  deriving Repr, DecidableEq

/-- Constructor `new BitString(length)`: `ceil(length/8)` zero bytes,
cursor 0. -/
def BitString.new (len : Nat) : BitString :=
  ⟨List.replicate ((len + 7) / 8) 0, 0, len⟩

/-- Source `checkRange(n)`: `if (n > this.length) throw Error("BitString overflow")`.
Note the strict comparison: `n = length` passes. -/
def BitString.checkRange (bs : BitString) (n : Nat) : Except String Unit :=
  if n > bs.length then .error "BitString overflow" else .ok ()

/-- Source `on(n)`: set bit `n` to 1 (after `checkRange`).  A write to a
byte index past the end of a `Uint8Array` is silently ignored, which is
exactly `List.set` out of bounds. -/
def BitString.on (bs : BitString) (n : Nat) : Except String BitString := do
  let _ ← bs.checkRange n
  .ok { bs with
        array := bs.array.set (n / 8)
          ((bs.array.getD (n / 8) 0) ||| (1 <<< (7 - n % 8))) }

/-- Source `off(n)`: clear bit `n` (after `checkRange`): `array[i] &= ~mask`,
which on a byte below 256 equals masking with `255 ^^^ mask`. -/
def BitString.off (bs : BitString) (n : Nat) : Except String BitString := do
  let _ ← bs.checkRange n
  .ok { bs with
        array := bs.array.set (n / 8)
          ((bs.array.getD (n / 8) 0) &&& (255 ^^^ (1 <<< (7 - n % 8)))) }

/-- Source `writeBit(b)`: set or clear the bit at the cursor, then advance
the cursor. -/
def BitString.writeBit (bs : BitString) (b : Bool) : Except String BitString := do
  let bs' ← if b then bs.on bs.cursor else bs.off bs.cursor
  .ok { bs' with cursor := bs'.cursor + 1 }

/-- Source `writeBitArray(ba)`: write the bits in order. -/
def BitString.writeBitList (bs : BitString) : List Bool → Except String BitString
  | [] => .ok bs
  | b :: rest => do (← bs.writeBit b).writeBitList rest

/-- Model of `BN(n).toString(2).length` for a non-negative `n`: the number
of binary digits, where 0 prints as "0" (one digit). -/
def bitStrLen (n : Nat) : Nat := if n = 0 then 1 else Nat.log2 n + 1

/-- Source `writeUint(number, bitLength)`.  The guards for `NaN`, `null` and
`undefined` cannot arise for a `Nat` argument.  The guard
`if (!bitLength) throw Error("writeUint: no bitLength")` fires for width 0
(so the later `number == 0` silent-return branch is unreachable for width 0).
Then, if `number.toString(2).length > bitLength`, a zero value returns
silently and any other value throws; otherwise the `bitLength` digits of the
zero-padded binary string are written most significant first. -/
def BitString.writeUint (bs : BitString) (n : Nat) (w : Nat) : Except String BitString :=
  if w = 0 then .error "writeUint: no bitLength"
  else if w = 0 ∨ bitStrLen n > w then
    (if n = 0 then .ok bs else .error "bitLength is too small for number")
  else
    bs.writeBitList ((List.range w).map (fun i => n.testBit (w - 1 - i)))

/-- Source `writeInt(number, bitLength)`.  Width 0 throws
("writeInt: no bitLength"); width 1 admits only `-1` and `0`; otherwise a
sign bit is written and then `2^(w-1) + n` (if negative) or `n` as an
unsigned `w-1` bit value.  For `n < -2^(w-1)` the source hands a negative
`BN` to `writeUint` (whose binary string starts with a minus sign); that
out-of-range case is modelled here by the `Int.toNat` clamp and is outside
every claim's range. -/
def BitString.writeInt (bs : BitString) (n : Int) (w : Nat) : Except String BitString :=
  if w = 0 then .error "writeInt: no bitLength"
  else if w = 1 then
    if n = -1 then bs.writeBit true
    else if n = 0 then bs.writeBit false
    else .error "Bitlength is too small for number"
  else
    if n < 0 then do
      let bs1 ← bs.writeBit true
      bs1.writeUint (2 ^ (w - 1) + n).toNat (w - 1)
    else do
      let bs1 ← bs.writeBit false
      bs1.writeUint n.toNat (w - 1)

/-- Loop body of `getTopUppedArray`: after the initial 1 bit, `tu - 1`
zero bits are appended (`while (tu > 0) { tu = tu - 1; ret.writeBit(false) }`). -/
def BitString.writeZeros (bs : BitString) : Nat → Except String BitString
  | 0 => .ok bs
  | k + 1 => do (← bs.writeBit false).writeZeros k

/-- Source `getTopUppedArray()`: on a clone, if the cursor is not
byte-aligned append one 1 bit and then zero bits up to the byte boundary,
then return the buffer truncated to `ceil(cursor/8)` bytes. -/
def BitString.getTopUppedArray (bs : BitString) : Except String (List Nat) := do
  let ret ← if (bs.cursor + 7) / 8 * 8 - bs.cursor > 0 then do
      let r1 ← bs.writeBit true
      r1.writeZeros ((bs.cursor + 7) / 8 * 8 - bs.cursor - 1)
    else .ok bs
  .ok (ret.array.take ((ret.cursor + 7) / 8))

/-- Loop of `setTopUppedArray` (`for (let c = 0; c < 7; c++)`): decrement
the cursor, and at the first set bit clear it and stop; after seven
misses throw "Incorrect TopUppedArray".  The fuel argument counts the
remaining iterations (7 at the start). -/
def BitString.findEndBit (st : BitString) : Nat → Except String BitString
  | 0 => .error "Incorrect TopUppedArray"
  | k + 1 =>
    if getBit st.array (st.cursor - 1) then
      ({ st with cursor := st.cursor - 1 }).off (st.cursor - 1)
    else BitString.findEndBit { st with cursor := st.cursor - 1 } k

/-- Source `setTopUppedArray(array, fullfilledBytes)`: replace the state by
the given bytes with `length = cursor = 8 * array.length`; when
`fullfilledBytes` or the content is empty, stop; otherwise scan back at
most 7 bits for the sentinel bit.  The previous state is ignored entirely,
hence the unused receiver. -/
def BitString.setTopUppedArray (_bs : BitString) (arr : List Nat)
    (fullfilledBytes : Bool) : Except String BitString :=
  let st : BitString := ⟨arr, arr.length * 8, arr.length * 8⟩
  if fullfilledBytes || arr.length * 8 = 0 then .ok st
  else st.findEndBit 7

/-- Model of the source class `Slice` (boc/Slice.ts): an immutable byte
buffer with a bit length, a read cursor, child slices and a ref cursor.
The type is an inductive because slices nest. -/
inductive Slice where
  | mk (array : List Nat) (length : Nat) (readCursor : Nat)
       (refs : List Slice) (refCursor : Nat)

def Slice.array : Slice → List Nat
  | .mk a _ _ _ _ => a

def Slice.length : Slice → Nat
  | .mk _ l _ _ _ => l

def Slice.readCursor : Slice → Nat
  | .mk _ _ rc _ _ => rc

def Slice.refs : Slice → List Slice
  | .mk _ _ _ rs _ => rs

def Slice.refCursor : Slice → Nat
  | .mk _ _ _ _ rc => rc

/-- Advancing of the read cursor by one. -/
def Slice.advanceRead : Slice → Slice
  | .mk a l rc rs rfc => .mk a l (rc + 1) rs rfc

/-- Advancing of the ref cursor by one. -/
def Slice.advanceRef : Slice → Slice
  | .mk a l rc rs rfc => .mk a l rc rs (rfc + 1)

/-- Source `Slice.checkRange(n)`: same strict bound as in `BitString`. -/
def Slice.checkRange (s : Slice) (n : Nat) : Except String Unit :=
  if n > s.length then .error "BitString overflow" else .ok ()

/-- Source `Slice.get(n)` checks the range (unlike `BitString.get`). -/
def Slice.get (s : Slice) (n : Nat) : Except String Bool := do
  let _ ← s.checkRange n
  .ok (getBit s.array n)

/-- Source `loadBit()`: read the bit at the read cursor, advance it. -/
def Slice.loadBit (s : Slice) : Except String (Bool × Slice) := do
  let b ← s.get s.readCursor
  .ok (b, s.advanceRead)

/-- Reading loop of `loadUint`: the source appends '0'/'1' characters to a
string and converts with `BN(s, 2)`; accumulating `acc * 2 + bit` computes
the same number. -/
def Slice.loadUintLoop (s : Slice) (acc : Nat) : Nat → Except String (Nat × Slice)
  | 0 => .ok (acc, s)
  | k + 1 => do
    let (b, s') ← s.loadBit
    s'.loadUintLoop (acc * 2 + (if b then 1 else 0)) k

/-- Source `loadUint(bitLength)`: `bitLength < 1` throws
"Incorrect bitLength", else the next `bitLength` bits big-endian. -/
def Slice.loadUint (s : Slice) (w : Nat) : Except String (Nat × Slice) :=
  if w < 1 then .error "Incorrect bitLength" else s.loadUintLoop 0 w

/-- Source `loadInt(bitLength)`: sign bit, then for width 1 the value is
`-1` or `0`; otherwise `w - 1` unsigned bits, minus `2^(w-1)` when the sign
bit was set. -/
def Slice.loadInt (s : Slice) (w : Nat) : Except String (Int × Slice) :=
  if w < 1 then .error "Incorrect bitLength" else do
    let (sign, s1) ← s.loadBit
    if w = 1 then .ok (if sign then (-1 : Int) else 0, s1)
    else do
      let (u, s2) ← s1.loadUint (w - 1)
      .ok (if sign then (u : Int) - 2 ^ (w - 1) else (u : Int), s2)

/-- Source `loadRef()`: `refCursor >= 4` throws "refs overflow"; otherwise
`refs.at(refCursor)` (which is `none` past the end) is returned and the
ref cursor advances. -/
def Slice.loadRef (s : Slice) : Except String (Option Slice × Slice) :=
  if s.refCursor ≥ 4 then .error "refs overflow"
  else .ok (s.refs.get? s.refCursor, s.advanceRef)

/-!  Cells and the serializer's topological walk (boc/Cell.ts).

A source `Cell` owns a `BitString` of capacity 1023, a list of child cells
and an exotic flag; here the bit content is modelled as the list of the
`cursor` bits actually written.  During serialization the walk keys cells
by `await cell.hash()` = `sha256(await this.getRepr())` (boc/Cell.ts lines
388-404), where `sha256` (utils/Utils.ts line 4) delegates to the platform
primitive `crypto.subtle.digest("SHA-256", ...)`, whose algorithm has no
source in the repository; the hash bytes are turned into map keys by
`uint8ArrayToText` (also without source here), an injective bytes-to-string
conversion, so keys are modelled as the hash byte lists themselves.

The hash function is therefore kept abstract: the faithful definitions
below (`treeWalkH`, `moveToTheEndH`, `hashIndex`, `serializeRefIndicesH`)
take a parameter `h : Cell → List Nat` standing for
`uint8ArrayToText(sha256(getRepr(...)))`, operate on lists of
`(hash, cell)` pairs exactly as the source operates on
`topologicalOrderArray`, and model the `indexHashmap` by the position of a
key in the hash column (the source keeps the two in lock step: it writes
`indexHashmap[hash] = array.length` right before each push and renumbers
both together in `moveToTheEnd`, so the map always sends each key to its
array position).  The forward-reference theorem assumes `h` injective on
the serialized sub-DAG — the collision-freedom of SHA-256 that the
hash-keyed deduplication relies on — and proves the hash-keyed walk equal
to a hash-free structural walk (`treeWalk` below), which carries the
combinatorial argument. -/

inductive Cell where
  | mk (bits : List Bool) (refs : List Cell) (isExotic : Bool)

mutual
def Cell.beq : Cell → Cell → Bool
  | .mk b1 r1 e1, .mk b2 r2 e2 => b1 == b2 && Cell.beqList r1 r2 && e1 == e2
def Cell.beqList : List Cell → List Cell → Bool
  | [], [] => true
  | c :: cs, d :: ds => Cell.beq c d && Cell.beqList cs ds
  | _, _ => false
end

instance : BEq Cell := ⟨Cell.beq⟩

mutual
theorem Cell.beq_iff : ∀ a b : Cell, Cell.beq a b = true ↔ a = b
  | .mk b1 r1 e1, .mk b2 r2 e2 => by
    simp only [Cell.beq, Bool.and_eq_true, beq_iff_eq, Cell.mk.injEq]
    constructor
    · rintro ⟨⟨h1, h2⟩, h3⟩
      exact ⟨h1, (Cell.beqList_iff r1 r2).mp h2, h3⟩
    · rintro ⟨h1, h2, h3⟩
      exact ⟨⟨h1, (Cell.beqList_iff r1 r2).mpr h2⟩, h3⟩
theorem Cell.beqList_iff : ∀ xs ys : List Cell, Cell.beqList xs ys = true ↔ xs = ys
  | [], [] => by simp [Cell.beqList]
  | [], _ :: _ => by simp [Cell.beqList]
  | _ :: _, [] => by simp [Cell.beqList]
  | x :: xs, y :: ys => by
    simp only [Cell.beqList, Bool.and_eq_true, List.cons.injEq]
    rw [Cell.beq_iff x y, Cell.beqList_iff xs ys]
end

instance : LawfulBEq Cell where
  eq_of_beq h := (Cell.beq_iff _ _).mp h
  rfl := (Cell.beq_iff _ _).mpr rfl

instance : DecidableEq Cell := fun a b =>
  decidable_of_iff (Cell.beq a b = true) (Cell.beq_iff a b)

def Cell.bits : Cell → List Bool
  | .mk bs _ _ => bs

def Cell.refs : Cell → List Cell
  | .mk _ rs _ => rs

mutual
/-- Reaching set of a cell: the cell together with every descendant
through `refs` (the sub-DAG serialized below it). -/
def Cell.reach : Cell → List Cell
  | .mk bs rs ex => .mk bs rs ex :: reachList rs
def reachList : List Cell → List Cell
  | [] => []
  | c :: cs => c.reach ++ reachList cs
end

mutual
/-- Hash-free idealization of `moveToTheEnd` (proof skeleton, not the
claim's definition): splice the target out of the order, push it at the
end, then recursively relocate each of its children.  `moveToTheEndH`
below is the faithful hash-keyed version; `treeH_sim` proves the two walks
equal when the hash is injective on the cells involved. -/
def moveToTheEnd (T : List Cell) : Cell → List Cell
  | .mk bs rs ex => moveList ((T.erase (.mk bs rs ex)) ++ [.mk bs rs ex]) rs
def moveList (T : List Cell) : List Cell → List Cell
  | [] => T
  | c :: cs => moveList (moveToTheEnd T c) cs
end

mutual
/-- Hash-free idealization of `treeWalk` (proof skeleton, not the claim's
definition; the faithful hash-keyed walk is `treeWalkH` below): on a first
visit the cell is appended and its children are walked with the cell as
parent; on a revisit, if the parent sits at a strictly greater index than
the duplicate, the duplicate is relocated to the end. -/
def treeWalk : Cell → List Cell → Option Cell → List Cell
  | .mk bs rs ex, T, parent =>
    let c : Cell := .mk bs rs ex
    if c ∈ T then
      match parent with
      | some p => if T.indexOf c < T.indexOf p then moveToTheEnd T c else T
      | none => T
    else walkList rs (T ++ [c]) c
def walkList : List Cell → List Cell → Cell → List Cell
  | [], T, _ => T
  | c :: rest, T, p => walkList rest (treeWalk c T (some p)) p
end

/-- Idealized entry point (`treeWalk(this, [], {})` without hashes): the
order the structural walk produces.  Used only through the simulation. -/
def topologicalOrderOf (root : Cell) : List Cell := treeWalk root [] none

/-- Positions of a cell's children in the idealized order (proof skeleton
counterpart of `serializeRefIndicesH` below). -/
def serializeRefIndices (T : List Cell) (c : Cell) : List Nat :=
  c.refs.map T.indexOf

/-- Source `indexHashmap` lookup on the modelled state: the map sends a
hash key to its position in the order (kept in lock step by the source),
and is undefined (`none`) on keys never inserted. -/
def hashIndex (T : List (List Nat × Cell)) (k : List Nat) : Option Nat :=
  if k ∈ T.map Prod.fst then some ((T.map Prod.fst).indexOf k) else none

/-- JS `>` on two possibly-undefined indices
(`indexHashmap[parentHashString] > indexHashmap[cellHashString]`): any
comparison with `undefined` is false. -/
def gtOpt : Option Nat → Option Nat → Bool
  | some a, some b => decide (b < a)
  | _, _ => false

mutual
/-- Source `moveToTheEnd(indexHashmap, topologicalOrderArray, target)`,
keyed by hashes: `targetIndex = indexHashmap[targetString]`; the entry is
spliced out (`splice(targetIndex, 1)`), the indices above it renumbered,
the entry pushed at the end with index `length - 1`, and each child hash
of the moved cell relocated in turn.  The `fuel` argument counts recursive
calls: the source recursion is driven by the cells stored under looked-up
hashes, which Lean cannot see terminate (and under hash collisions the JS
recursion can in fact diverge), so a call with exhausted fuel returns
`none`; `treeH_sim` shows fuel `sizeOf` of the relocated cell suffices in
the collision-free runs the theorem is about.  A lookup of a key that was
never inserted yields `undefined` in the source, making `splice` fall back
to position 0 and desynchronizing `indexHashmap` from the array; that dead
branch (never reached in walks, as proven in `moveH_sim`) is modelled as
`none` as well. -/
def moveToTheEndH (h : Cell → List Nat) :
    Nat → List (List Nat × Cell) → List Nat → Option (List (List Nat × Cell))
  | 0, _, _ => none
  | fuel + 1, T, target =>
    match hashIndex T target with
    | none => none
    | some i =>
      match T.get? i with
      | none => none
      | some d => moveListH h fuel ((T.eraseIdx i) ++ [d]) d.2.refs
/-- The `for (const subCell of data[1].refs)` loop of `moveToTheEnd`:
relocate each child hash in order. -/
def moveListH (h : Cell → List Nat) :
    Nat → List (List Nat × Cell) → List Cell → Option (List (List Nat × Cell))
  | 0, _, _ => none
  | _ + 1, T, [] => some T
  | fuel + 1, T, r :: rest =>
    match moveToTheEndH h fuel T (h r) with
    | none => none
    | some T1 => moveListH h fuel T1 rest
end

mutual
/-- Source `treeWalk(cell, topologicalOrderArray, indexHashmap,
parentHash)`, keyed by hashes: if `cellHashString in indexHashmap`, the
cell is a duplicate — with a parent whose stored index is strictly greater
than the duplicate's, the duplicate is relocated by `moveToTheEnd`,
otherwise the state is returned unchanged; on a first visit
`indexHashmap[cellHashString] = length` is recorded, the pair
`[cellHash, cell]` pushed, and the children walked with `cellHash` as the
parent hash.  Fuel as in `moveToTheEndH`. -/
def treeWalkH (h : Cell → List Nat) :
    Nat → Cell → List (List Nat × Cell) → Option (List Nat) →
      Option (List (List Nat × Cell))
  | 0, _, _, _ => none
  | fuel + 1, c, T, parentHash =>
    if h c ∈ T.map Prod.fst then
      match parentHash with
      | some ph =>
        if gtOpt (hashIndex T ph) (hashIndex T (h c)) then
          moveToTheEndH h fuel T (h c)
        else some T
      | none => some T
    else walkListH h fuel c.refs (T ++ [(h c, c)]) (h c)
/-- The `for (const subCell of cell.refs)` loop of `treeWalk`. -/
def walkListH (h : Cell → List Nat) :
    Nat → List Cell → List (List Nat × Cell) → List Nat →
      Option (List (List Nat × Cell))
  | 0, _, _, _ => none
  | _ + 1, [], T, _ => some T
  | fuel + 1, r :: rest, T, ph =>
    match treeWalkH h fuel r T (some ph) with
    | none => none
    | some T1 => walkListH h fuel rest T1 ph
end

/-- Reference indices that `serializeForBoc(cellsIndex)` writes for one
cell (boc/Cell.ts lines 487-509): for each child,
`cellsIndex[uint8ArrayToText(await cell.hash())]`, i.e. the `indexHashmap`
entry of the child's hash (`none` when the hash was never indexed — the
source would then crash on `undefined.toString(16)`). -/
def serializeRefIndicesH (h : Cell → List Nat) (T : List (List Nat × Cell))
    (c : Cell) : List (Option Nat) :=
  c.refs.map (fun r => hashIndex T (h r))

/-- Source `getBitsDescriptor()`: the byte
`Math.ceil(bits.cursor / 8) + Math.floor(bits.cursor / 8)` (stored into a
`Uint8Array`, hence reduced mod 256). -/
def Cell.getBitsDescriptor (c : Cell) : Nat :=
  ((c.bits.length + 7) / 8 + c.bits.length / 8) % 256

/-- Decoder side of the bits descriptor, from `deserializeCellData`:
`dataBytesize = Math.ceil(d2 / 2)`. -/
def dataBytesize (d2 : Nat) : Nat := (d2 + 1) / 2

/-- Decoder side of the bits descriptor, from `deserializeCellData`:
`fullfilledBytes = !(d2 % 2)`. -/
def fullfilledOf (d2 : Nat) : Bool := d2 % 2 == 0

/-!  Serializer envelope (`toBoc`, boc/Cell.ts lines 439-467). -/

/-- Bytes of `reachBocMagicPrefix` (`hexToBytes("B5EE9C72")`). -/
def reachBocMagic : List Nat := [0xB5, 0xEE, 0x9C, 0x72]

/-- Source `writeUint8(ui8)`. -/
def BitString.writeUint8 (bs : BitString) (n : Nat) : Except String BitString :=
  bs.writeUint n 8

/-- Source `writeBytes(ui8)`: each byte as an 8-bit unsigned value. -/
def BitString.writeBytes (bs : BitString) : List Nat → Except String BitString
  | [] => .ok bs
  | b :: rest => do (← bs.writeUint8 b).writeBytes rest

/-- Size field of `toBoc`:
`s_bytes = Math.min(Math.ceil(s / 8), 1)` where `s` is the length of
`cells_num.toString(2)`. -/
def sBytesOf (cells_num : Nat) : Nat := min ((bitStrLen cells_num + 7) / 8) 1

/-- Offset width of `toBoc`:
`offset_bytes = Math.max(Math.ceil(offset_bits / 8), 1)` where
`offset_bits` is the length of `full_size.toString(2)`. -/
def offsetBytesOf (full_size : Nat) : Nat := max ((bitStrLen full_size + 7) / 8) 1

/-- Header part of `toBoc` (everything written before the optional offset
index and the cell bodies), as a function of the cell count and the total
body size: magic, the three flag bits, the 2-bit flags field, the 3-bit
`s_bytes`, the 8-bit `offset_bytes`, then `cells_num`, `roots_num` (1),
`absent_num` (0) in `s_bytes * 8` bits each, `full_size` in
`offset_bytes * 8` bits, and the root index 0 in `s_bytes * 8` bits.
The scratch buffer has capacity `(1023 + 32 * 4 + 32 * 3) * cells_num`
bits, as in the source (`topologicalOrder.length = cells_num`). -/
def toBocHeader (cells_num full_size : Nat)
    (has_idx hash_crc32 has_cache_bits : Bool) (flags : Nat) :
    Except String BitString := do
  let ser ← (BitString.new ((1023 + 32 * 4 + 32 * 3) * cells_num)).writeBytes
    reachBocMagic
  let ser ← ser.writeBitList [has_idx, hash_crc32, has_cache_bits]
  let ser ← ser.writeUint flags 2
  let ser ← ser.writeUint (sBytesOf cells_num) 3
  let ser ← ser.writeUint8 (offsetBytesOf full_size)
  let ser ← ser.writeUint cells_num (sBytesOf cells_num * 8)
  let ser ← ser.writeUint 1 (sBytesOf cells_num * 8)
  let ser ← ser.writeUint 0 (sBytesOf cells_num * 8)
  let ser ← ser.writeUint full_size (offsetBytesOf full_size * 8)
  let ser ← ser.writeUint 0 (sBytesOf cells_num * 8)
  .ok ser

/-!  Deserializer reference resolution (`deserializeBoc`, boc/Cell.ts
lines 707-715).

After `deserializeCellData`, every cell's refs are transient numeric
indices (`RawCell` below).  The loop then runs `ci` from `cells_num - 1`
down to `0` and replaces each numeric ref `r` of cell `ci` by the array
entry `cells_array[r]`, throwing "Topological order is broken" when
`r < ci` (note: strictly less — `r = ci` passes the check and stores the
cell into its own ref list).

The in-place pointer graph is modelled with `PartCell`, whose refs are
either still-numeric (`Sum.inl`) or resolved cells (`Sum.inr`).  A ref
accepted by the check but not materializable as a finite cell value — a
self reference `r = ci`, whose JS result is a cyclic object, or an
out-of-range `r ≥ cells_num`, whose JS result is `undefined` — is kept as
its numeric index; no claim depends on the representation of those two
results, only on the fact that they do not fail. -/

structure RawCell where
  bits : List Bool
  refIdx : List Nat
  isExotic : Bool
  deriving DecidableEq

structure PartCell where
  bits : List Bool
  refs : List (Nat ⊕ Cell)
  isExotic : Bool
  deriving DecidableEq

/-- Collection of an all-resolved ref list; `none` as soon as a transient
index remains. -/
def allResolved : List (Nat ⊕ Cell) → Option (List Cell)
  | [] => some []
  | .inr c :: rest => do
    let cs ← allResolved rest
    some (c :: cs)
  | .inl _ :: _ => none

/-- Conversion of a fully-resolved `PartCell` into a `Cell` (the view the
surrounding program has of `cells_array[r]` once every transient index in
it has been replaced). -/
def PartCell.toCell? (p : PartCell) : Option Cell := do
  let rs ← allResolved p.refs
  some (.mk p.bits rs p.isExotic)

/-- Inner loop (`for (let ri = 0; ...)`) over the refs of cell `ci`,
reading `cells_array` in state `st`: a non-numeric ref is skipped, a
numeric `r < ci` throws, and otherwise the ref becomes `cells_array[r]`. -/
def resolveRefList (st : List PartCell) (ci : Nat) :
    List (Nat ⊕ Cell) → Except String (List (Nat ⊕ Cell))
  | [] => .ok []
  | .inr c :: rest => do
    let rest' ← resolveRefList st ci rest
    .ok (.inr c :: rest')
  | .inl r :: rest =>
    if r < ci then .error "Topological order is broken"
    else do
      let rest' ← resolveRefList st ci rest
      let newRef := match st.get? r with
        | some pc => match pc.toCell? with
          | some c => Sum.inr c
          | none => Sum.inl r
        | none => Sum.inl r
      .ok (newRef :: rest')

/-- Body of the outer loop at index `ci`: resolve cell `ci`'s refs against
the current array. -/
def resolveStep (st : List PartCell) (ci : Nat) : Except String (List PartCell) :=
  match st.get? ci with
  | none => .ok st
  | some cell => do
    let refs' ← resolveRefList st ci cell.refs
    .ok (st.set ci { cell with refs := refs' })

/-- Outer loop `for (let ci = cells_num - 1; ci >= 0; ci--)`: with fuel
`k`, processes indices `k - 1, k - 2, ..., 0`. -/
def resolveDown (st : List PartCell) : Nat → Except String (List PartCell)
  | 0 => .ok st
  | k + 1 => do resolveDown (← resolveStep st k) k

/-- State of `cells_array` right after `deserializeCellData`: every ref is
a transient numeric index. -/
def RawCell.toPart (rc : RawCell) : PartCell :=
  ⟨rc.bits, rc.refIdx.map Sum.inl, rc.isExotic⟩

/-- Reference-resolution pass of `deserializeBoc` over the freshly parsed
cells. -/
def resolveBocRefs (raws : List RawCell) : Except String (List PartCell) :=
  resolveDown (raws.map RawCell.toPart) raws.length

/-- Denotation of cell `i` of a strictly-forward, in-range raw array: the
cell it resolves to, children resolved recursively.  Out-of-range data
(never reached under the hypotheses of the theorems that use it) yields a
placeholder empty cell. -/
def resolveCell (raws : List RawCell) (i : Nat) : Cell :=
  match raws.get? i with
  | none => .mk [] [] false
  | some rc =>
    .mk rc.bits
      (rc.refIdx.map fun r =>
        if _h : i < r ∧ r < raws.length then resolveCell raws r
        else .mk [] [] false)
      rc.isExotic
termination_by raws.length - i
decreasing_by omega

/-!  Toolkit: behaviour of the primitive bit operations. -/

/-- Array update performed by `writeBit` at position `n`. -/
def setBitArr (arr : List Nat) (n : Nat) (b : Bool) : List Nat :=
  arr.set (n / 8)
    (if b then (arr.getD (n / 8) 0) ||| (1 <<< (7 - n % 8))
     else (arr.getD (n / 8) 0) &&& (255 ^^^ (1 <<< (7 - n % 8))))

theorem writeBit_eq (bs : BitString) (b : Bool) :
    bs.writeBit b =
      if bs.cursor ≤ bs.length
      then .ok ⟨setBitArr bs.array bs.cursor b, bs.cursor + 1, bs.length⟩
      else .error "BitString overflow" := by
  by_cases hc : bs.length < bs.cursor
  · rw [if_neg (by omega)]
    cases b <;> simp [BitString.writeBit, BitString.on, BitString.off,
      BitString.checkRange, bind, Except.bind, if_pos hc]
  · rw [if_pos (by omega)]
    cases b <;> simp [BitString.writeBit, BitString.on, BitString.off,
      BitString.checkRange, bind, Except.bind, if_neg hc, setBitArr]

theorem getBit_setBitArr_self {arr : List Nat} {n : Nat} (b : Bool)
    (h : n / 8 < arr.length) : getBit (setBitArr arr n b) n = b := by
  have h255 : (255 : Nat).testBit (7 - n % 8) = true := by
    have h8 : 7 - n % 8 < 8 := by omega
    interval_cases h : (7 - n % 8) <;> decide
  have hgd : getBit (setBitArr arr n b) n
      = Nat.testBit (if b then (arr.getD (n / 8) 0) ||| (1 <<< (7 - n % 8))
          else (arr.getD (n / 8) 0) &&& (255 ^^^ (1 <<< (7 - n % 8)))) (7 - n % 8) := by
    simp [getBit, setBitArr, List.getD, List.getElem?_set, h]
  rw [hgd]
  cases b <;>
    simp [Nat.shiftLeft_eq, Nat.testBit_land, Nat.testBit_lor,
      Nat.testBit_xor, Nat.testBit_two_pow, h255]

theorem getBit_setBitArr_ne {arr : List Nat} {n m : Nat} (b : Bool)
    (h : m ≠ n) : getBit (setBitArr arr n b) m = getBit arr m := by
  by_cases hb : m / 8 = n / 8
  · by_cases hlen : n / 8 < arr.length
    · have hm8 : ¬ (7 - n % 8 = 7 - m % 8) := by omega
      have h255 : (255 : Nat).testBit (7 - m % 8) = true := by
        have h8 : 7 - m % 8 < 8 := by omega
        interval_cases h : (7 - m % 8) <;> decide
      have hgd : getBit (setBitArr arr n b) m
          = Nat.testBit (if b then (arr.getD (n / 8) 0) ||| (1 <<< (7 - n % 8))
              else (arr.getD (n / 8) 0) &&& (255 ^^^ (1 <<< (7 - n % 8)))) (7 - m % 8) := by
        simp [getBit, setBitArr, List.getD, List.getElem?_set, hb, hlen]
      rw [hgd]
      have hgm : getBit arr m = Nat.testBit (arr.getD (n / 8) 0) (7 - m % 8) := by
        simp [getBit, hb]
      rw [hgm]
      cases b <;>
        simp [Nat.shiftLeft_eq, Nat.testBit_land, Nat.testBit_lor,
          Nat.testBit_xor, Nat.testBit_two_pow, h255, hm8]
    · simp [setBitArr, List.set_eq_of_length_le (by omega : arr.length ≤ n / 8)]
  · simp [getBit, setBitArr, List.getD, List.getElem?_set_ne (by omega : n / 8 ≠ m / 8)]


/-- Writing a list of bits: when every written position is within
`checkRange` (`cursor + |l| ≤ length + 1`), the write succeeds, the cursor
advances by `|l|`, capacity and buffer size are unchanged, every written
bit lands at its position (whenever that position has a backing byte), and
every other bit is untouched. -/
theorem writeBitList_spec (l : List Bool) (bs : BitString)
    (h : bs.cursor + l.length ≤ bs.length + 1) :
    ∃ bs', bs.writeBitList l = .ok bs' ∧
      bs'.cursor = bs.cursor + l.length ∧
      bs'.length = bs.length ∧
      bs'.array.length = bs.array.length ∧
      (∀ i, (hi : i < l.length) → bs.cursor + i < 8 * bs.array.length →
        getBit bs'.array (bs.cursor + i) = l.get ⟨i, hi⟩) ∧
      (∀ m, (m < bs.cursor ∨ bs.cursor + l.length ≤ m) →
        getBit bs'.array m = getBit bs.array m) := by
  induction l generalizing bs with
  | nil =>
    exact ⟨bs, rfl, by simp, rfl, rfl, by simp, fun m _ => rfl⟩
  | cons b rest ih =>
    simp only [List.length_cons] at h
    have hcle : bs.cursor ≤ bs.length := by omega
    have hwb : bs.writeBit b
        = .ok ⟨setBitArr bs.array bs.cursor b, bs.cursor + 1, bs.length⟩ := by
      rw [writeBit_eq, if_pos hcle]
    have harr : (setBitArr bs.array bs.cursor b).length = bs.array.length := by
      simp [setBitArr]
    set bs1 : BitString := ⟨setBitArr bs.array bs.cursor b, bs.cursor + 1, bs.length⟩
      with hbs1
    have hc1 : bs1.cursor = bs.cursor + 1 := rfl
    have hl1 : bs1.length = bs.length := rfl
    have ha1 : bs1.array = setBitArr bs.array bs.cursor b := rfl
    obtain ⟨bs', hok, hcur, hlen, halen, hbits, hpres⟩ :=
      ih bs1 (by rw [hc1, hl1]; omega)
    refine ⟨bs', ?_, ?_, ?_, ?_, ?_, ?_⟩
    · simp only [BitString.writeBitList, hwb, bind, Except.bind]
      exact hok
    · rw [hcur, hc1, List.length_cons]; omega
    · rw [hlen, hl1]
    · rw [halen, ha1, harr]
    · intro i hi hbound
      match i with
      | 0 =>
        have hp := hpres bs.cursor (by rw [hc1]; omega)
        rw [Nat.add_zero] at hbound ⊢
        rw [hp, ha1, getBit_setBitArr_self b (by omega)]
        rfl
      | j + 1 =>
        have hj : j < rest.length := by simp at hi; omega
        have hb2 := hbits j hj (by rw [hc1, ha1, harr]; omega)
        rw [hc1] at hb2
        have he : bs.cursor + 1 + j = bs.cursor + (j + 1) := by omega
        rw [he] at hb2
        rw [hb2]
        rfl
    · intro m hm
      simp only [List.length_cons] at hm
      have h1 := hpres m (by rw [hc1]; omega)
      rw [h1, ha1, getBit_setBitArr_ne b (by omega)]

/-- Identification of `writeZeros` with writing a list of `false` bits. -/
theorem writeZeros_eq (bs : BitString) (k : Nat) :
    bs.writeZeros k = bs.writeBitList (List.replicate k false) := by
  induction k generalizing bs with
  | zero => rfl
  | succ j ih =>
    simp only [BitString.writeZeros, List.replicate, BitString.writeBitList,
      bind, Except.bind]
    cases bs.writeBit false with
    | error e => rfl
    | ok bs1 => exact ih bs1

/-!  Claim C6: capacity bound of `writeBit`. -/

/-- C6 (amended): `writeBit` fails (with "BitString overflow") if and only
if the cursor strictly exceeds the capacity — `checkRange` tests
`n > length`, so a write at `cursor = length` succeeds and can even define
a bit at position `length` inside the final partial byte.  The original
claim (failure whenever `cursor ≥ capacity`) is refuted by
`C6_counterexample`. -/
theorem C6_writeBit_fails_iff (bs : BitString) (b : Bool) :
    bs.writeBit b = .error "BitString overflow" ↔ bs.length < bs.cursor := by
  rw [writeBit_eq]
  split <;> rename_i hc <;> simp <;> omega

/-- C6 counterexample: in `new BitString(5)` filled with five 1 bits the
cursor equals the capacity 5, yet the sixth `writeBit` succeeds — refuting
"fails whenever the cursor is greater than or equal to L" — and it defines
the bit at position 5, at capacity, refuting "no write ever defines a bit
at a position at or past capacity". -/
theorem C6_counterexample :
    ((BitString.new 5).writeBitList [true, true, true, true, true]
      >>= fun b1 => b1.writeBit true) = .ok ⟨[252], 6, 5⟩ ∧
    getBit [252] 5 = true := ⟨rfl, rfl⟩

/-!  Claim C5: `writeUint` with width 0. -/

/-- C5 (amended): `writeUint(n, 0)` fails for every value `n`, including
`n = 0`, with the error "writeUint: no bitLength": the guard
`if (!bitLength) throw` fires before the zero-value silent-return branch,
which is dead code for width 0.  The claimed silent no-op for
`writeUint(0, 0)` is refuted by `C5_counterexample`. -/
theorem C5_writeUint_zero_width (bs : BitString) (n : Nat) :
    bs.writeUint n 0 = .error "writeUint: no bitLength" := rfl

/-- C5 counterexample: `writeUint(0, 0)` on a fresh bit string throws
"writeUint: no bitLength" instead of being a silent no-op. -/
theorem C5_counterexample :
    (BitString.new 8).writeUint 0 0 = .error "writeUint: no bitLength" := rfl

/-!  Claim C10: `loadRef` failure boundary. -/

/-- C10: `loadRef` fails (with "refs overflow") exactly when the ref
cursor has already reached 4; when the ref cursor is below 4 the call
succeeds even if every child slice has been consumed
(`refCursor ≥ refs.length`), in which case it returns `none` (JS
`undefined`) while still advancing the ref cursor by one. -/
theorem C10_loadRef_boundary (s : Slice) :
    (s.loadRef = .error "refs overflow" ↔ 4 ≤ s.refCursor) ∧
    (s.refCursor < 4 →
      s.loadRef = .ok (s.refs.get? s.refCursor, s.advanceRef) ∧
      s.advanceRef.refCursor = s.refCursor + 1 ∧
      (s.refs.length ≤ s.refCursor → s.refs.get? s.refCursor = none)) := by
  unfold Slice.loadRef
  constructor
  · split <;> rename_i hc <;> simp <;> omega
  · intro h4
    rw [if_neg (by omega)]
    refine ⟨rfl, ?_, fun hle => ?_⟩
    · cases s
      rfl
    · exact List.get?_eq_none.mpr hle

/-- Witness for C10 at a concrete slice with no children and ref cursor 0:
the load does not fail and returns no slice. -/
theorem C10_witness :
    (Slice.mk [] 0 0 [] 0).loadRef
      = .ok ((Slice.mk [] 0 0 [] 0).refs.get? 0, (Slice.mk [] 0 0 [] 0).advanceRef) :=
  ((C10_loadRef_boundary (Slice.mk [] 0 0 [] 0)).2 (by decide)).1

/-!  Claim C7: bits descriptor byte and its decoder inversion. -/

/-- C7: for every cell holding at most 1023 data bits, the bits descriptor
byte equals `floor(c/8) + ceil(c/8)` (no wrap-around occurs in the
`Uint8Array` store), the decoder recovers the top-upped byte count:
`ceil(d2/2) = ceil(c/8)`, and `d2` is even exactly when `c` is a multiple
of 8. -/
theorem C7_bitsDescriptor_inversion (c : Cell) (h : c.bits.length ≤ 1023) :
    c.getBitsDescriptor = c.bits.length / 8 + (c.bits.length + 7) / 8 ∧
    dataBytesize c.getBitsDescriptor = (c.bits.length + 7) / 8 ∧
    (fullfilledOf c.getBitsDescriptor = true ↔ c.bits.length % 8 = 0) := by
  unfold Cell.getBitsDescriptor dataBytesize fullfilledOf
  refine ⟨by omega, by omega, ?_⟩
  rw [beq_iff_eq]
  omega

/-- Witness for C7 at a concrete 3-bit cell: `d2 = 1`, one data byte,
not fully filled. -/
theorem C7_witness :
    dataBytesize (Cell.mk [true, false, true] [] false).getBitsDescriptor
      = ((Cell.mk [true, false, true] [] false).bits.length + 7) / 8 :=
  (C7_bitsDescriptor_inversion (Cell.mk [true, false, true] [] false)
    (by decide)).2.1

/-!  Claim C4: the signed integer round trip. -/

/-- Value of `w` bits read big-endian starting at position `c`. -/
def bitsValue (arr : List Nat) : Nat → Nat → Nat
  | _, 0 => 0
  | c, w + 1 => (if getBit arr c then 1 else 0) * 2 ^ w + bitsValue arr (c + 1) w

theorem bitStrLen_le_iff {n w : Nat} (hw : 1 ≤ w) : bitStrLen n ≤ w ↔ n < 2 ^ w := by
  unfold bitStrLen
  split
  · next h =>
    subst h
    exact iff_of_true hw (pow_pos (by norm_num) w)
  · next h =>
    have : Nat.log2 n < w ↔ n < 2 ^ w := Nat.log2_lt h
    omega

theorem writeUint_spec (bs : BitString) (n w : Nat)
    (hw : 1 ≤ w) (hn : n < 2 ^ w) (hcap : bs.cursor + w ≤ bs.length + 1) :
    ∃ bs', bs.writeUint n w = .ok bs' ∧
      bs'.cursor = bs.cursor + w ∧ bs'.length = bs.length ∧
      bs'.array.length = bs.array.length ∧
      (∀ i, i < w → bs.cursor + i < 8 * bs.array.length →
        getBit bs'.array (bs.cursor + i) = n.testBit (w - 1 - i)) ∧
      (∀ m, (m < bs.cursor ∨ bs.cursor + w ≤ m) →
        getBit bs'.array m = getBit bs.array m) := by
  have hbsl : bitStrLen n ≤ w := (bitStrLen_le_iff hw).mpr hn
  obtain ⟨bs', hok, hcur, hlen, halen, hbits, hpres⟩ :=
    writeBitList_spec ((List.range w).map (fun i => n.testBit (w - 1 - i))) bs
      (by simpa using hcap)
  refine ⟨bs', ?_, by simpa using hcur, hlen, halen, ?_, ?_⟩
  · unfold BitString.writeUint
    rw [if_neg (by omega), if_neg (by simp only [not_or]; exact ⟨by omega, by omega⟩)]
    exact hok
  · intro i hi hbound
    have := hbits i (by simpa using hi) hbound
    simpa using this
  · intro m hm
    exact hpres m (by simpa using hm)

theorem bitsValue_eq_of_testBit (w : Nat) :
    ∀ (arr : List Nat) (c n : Nat), n < 2 ^ w →
    (∀ i, i < w → getBit arr (c + i) = n.testBit (w - 1 - i)) →
    bitsValue arr c w = n := by
  induction w with
  | zero =>
    intro arr c n hn _
    simp only [bitsValue]
    omega
  | succ v ih =>
    intro arr c n hn hbits
    have h0 : getBit arr c = n.testBit v := by simpa using hbits 0 (by omega)
    have hrest : ∀ i, i < v → getBit arr (c + 1 + i) = (n % 2 ^ v).testBit (v - 1 - i) := by
      intro i hi
      have hji : v - 1 - i < v := by omega
      rw [Nat.testBit_mod_two_pow, decide_eq_true hji, Bool.true_and]
      have harg := hbits (i + 1) (by omega)
      have he : c + (i + 1) = c + 1 + i := by omega
      have he2 : v + 1 - 1 - (i + 1) = v - 1 - i := by omega
      rw [he, he2] at harg
      exact harg
    have hmod := ih arr (c + 1) (n % 2 ^ v) (Nat.mod_lt _ (by positivity)) hrest
    rw [bitsValue, hmod, h0]
    have hdm := Nat.div_add_mod n (2 ^ v)
    have htb : n.testBit v = decide (n / 2 ^ v % 2 = 1) := Nat.testBit_to_div_mod
    have hlt2 : n / 2 ^ v < 2 := by
      rw [Nat.div_lt_iff_lt_mul (by positivity)]
      calc n < 2 ^ (v + 1) := hn
        _ = 2 * 2 ^ v := by ring
    rcases Nat.le_one_iff_eq_zero_or_eq_one.mp (Nat.lt_succ_iff.mp hlt2) with h1 | h1
    · rw [h1, mul_zero] at hdm
      rw [htb, h1]
      norm_num
      omega
    · rw [h1, mul_one] at hdm
      rw [htb, h1]
      norm_num
      omega

theorem Slice.advanceRead_fields (s : Slice) :
    s.advanceRead.array = s.array ∧ s.advanceRead.length = s.length ∧
    s.advanceRead.readCursor = s.readCursor + 1 := by
  cases s
  exact ⟨rfl, rfl, rfl⟩

theorem loadBit_spec (s : Slice) (h : s.readCursor ≤ s.length) :
    s.loadBit = .ok (getBit s.array s.readCursor, s.advanceRead) := by
  simp [Slice.loadBit, Slice.get, Slice.checkRange, bind, Except.bind,
    if_neg (by omega : ¬ s.readCursor > s.length)]

theorem loadUintLoop_spec (w : Nat) :
    ∀ (s : Slice) (acc : Nat), s.readCursor + w ≤ s.length + 1 →
    ∃ s', s.loadUintLoop acc w
        = .ok (acc * 2 ^ w + bitsValue s.array s.readCursor w, s') ∧
      s'.array = s.array ∧ s'.length = s.length ∧
      s'.readCursor = s.readCursor + w := by
  induction w with
  | zero =>
    intro s acc _
    exact ⟨s, by simp [Slice.loadUintLoop, bitsValue], rfl, rfl, by omega⟩
  | succ v ih =>
    intro s acc h
    obtain ⟨ha, hl, hr⟩ := s.advanceRead_fields
    obtain ⟨s', hok, ha', hl', hr'⟩ :=
      ih s.advanceRead (acc * 2 + (if getBit s.array s.readCursor then 1 else 0))
        (by rw [hr, hl]; omega)
    rw [ha, hr] at hok
    refine ⟨s', ?_, by rw [ha', ha], by rw [hl', hl], by rw [hr', hr]; omega⟩
    simp only [Slice.loadUintLoop, loadBit_spec s (by omega), bind, Except.bind]
    rw [hok]
    have hval : acc * 2 ^ (v + 1) + bitsValue s.array s.readCursor (v + 1)
        = (acc * 2 + (if getBit s.array s.readCursor then 1 else 0)) * 2 ^ v
          + bitsValue s.array (s.readCursor + 1) v := by
      simp only [bitsValue]
      cases hb : getBit s.array s.readCursor <;> simp [hb] <;> ring
    rw [hval]

theorem loadUint_spec (s : Slice) (w : Nat) (hw : 1 ≤ w)
    (h : s.readCursor + w ≤ s.length + 1) :
    ∃ s', s.loadUint w = .ok (bitsValue s.array s.readCursor w, s') ∧
      s'.array = s.array ∧ s'.length = s.length ∧
      s'.readCursor = s.readCursor + w := by
  obtain ⟨s', hok, ha, hl, hr⟩ := loadUintLoop_spec w s 0 h
  refine ⟨s', ?_, ha, hl, hr⟩
  unfold Slice.loadUint
  rw [if_neg (by omega : ¬ w < 1)]
  simpa using hok

@[simp] theorem Slice.array_mk (a : List Nat) (l rc : Nat) (rs : List Slice) (rf : Nat) :
    (Slice.mk a l rc rs rf).array = a := rfl

@[simp] theorem Slice.length_mk (a : List Nat) (l rc : Nat) (rs : List Slice) (rf : Nat) :
    (Slice.mk a l rc rs rf).length = l := rfl

@[simp] theorem Slice.readCursor_mk (a : List Nat) (l rc : Nat) (rs : List Slice) (rf : Nat) :
    (Slice.mk a l rc rs rf).readCursor = rc := rfl

@[simp] theorem Slice.advanceRead_mk (a : List Nat) (l rc : Nat) (rs : List Slice) (rf : Nat) :
    (Slice.mk a l rc rs rf).advanceRead = Slice.mk a l (rc + 1) rs rf := rfl

/-- C4: for every width `w ≥ 2` and integer `n` with
`-2^(w-1) ≤ n ≤ 2^(w-1) - 1`, writing `n` with `writeInt(n, w)` into a
bit string having at least `w` free bits succeeds, and `loadInt(w)` on a
slice over the written buffer positioned at the old cursor returns exactly
`n` (advancing the read cursor by `w`).  The buffer-size hypothesis
`length ≤ 8 * |array|` holds for every constructed bit string
(`|array| = ceil(length/8)`). -/
theorem C4_signed_round_trip (bs : BitString) (n : Int) (w : Nat)
    (hw : 2 ≤ w) (hlo : -(2 ^ (w - 1) : Int) ≤ n) (hhi : n ≤ 2 ^ (w - 1) - 1)
    (hfree : bs.cursor + w ≤ bs.length) (harr : bs.length ≤ 8 * bs.array.length) :
    ∃ bs' s', bs.writeInt n w = .ok bs' ∧
      (Slice.mk bs'.array bs'.length bs.cursor [] 0).loadInt w = .ok (n, s') ∧
      s'.readCursor = bs.cursor + w := by
  have hpow : (0 : Int) < 2 ^ (w - 1) := by positivity
  -- the sign bit and the unsigned payload
  set sign : Bool := decide (n < 0) with hsign
  set m : Nat := if n < 0 then (2 ^ (w - 1) + n).toNat else n.toNat with hm
  have hm_eq : (m : Int) = if n < 0 then 2 ^ (w - 1) + n else n := by
    rw [hm]
    split <;> rename_i hn
    · rw [Int.toNat_of_nonneg (by omega)]
    · rw [Int.toNat_of_nonneg (by omega)]
  have hmlt : m < 2 ^ (w - 1) := by
    have h2 : ((2 : Int) ^ (w - 1)) = ((2 ^ (w - 1) : Nat) : Int) := by push_cast; ring
    rw [← Int.ofNat_lt, ← h2]
    rw [hm_eq]
    split <;> omega
  -- step 1: the sign bit
  have hwb : bs.writeBit sign
      = .ok ⟨setBitArr bs.array bs.cursor sign, bs.cursor + 1, bs.length⟩ := by
    rw [writeBit_eq, if_pos (by omega)]
  set bs1 : BitString := ⟨setBitArr bs.array bs.cursor sign, bs.cursor + 1, bs.length⟩
    with hbs1
  have hc1 : bs1.cursor = bs.cursor + 1 := rfl
  have hl1 : bs1.length = bs.length := rfl
  have ha1len : bs1.array.length = bs.array.length := by
    rw [hbs1]
    simp [setBitArr]
  -- step 2: the unsigned payload
  obtain ⟨bs', hok2, hcur', hlen', halen', hbits', hpres'⟩ :=
    writeUint_spec bs1 m (w - 1) (by omega) hmlt (by rw [hc1, hl1]; omega)
  have hlen'' : bs'.length = bs.length := by rw [hlen', hl1]
  have halen'' : bs'.array.length = bs.array.length := by rw [halen', ha1len]
  have hwrite : bs.writeInt n w = .ok bs' := by
    unfold BitString.writeInt
    rw [if_neg (by omega), if_neg (by omega)]
    by_cases hn : n < 0
    · rw [if_pos hn]
      have hsgn : sign = true := by rw [hsign]; simp [hn]
      rw [← hsgn, hwb]
      simp only [bind, Except.bind]
      have : (2 ^ (w - 1) + n).toNat = m := by rw [hm, if_pos hn]
      rw [this]
      exact hok2
    · rw [if_neg hn]
      have hsgn : sign = false := by rw [hsign]; simp [hn]
      rw [← hsgn, hwb]
      simp only [bind, Except.bind]
      have : n.toNat = m := by rw [hm, if_neg hn]
      rw [this]
      exact hok2
  -- the sign bit is preserved by the payload write and reads back
  have hsignbit : getBit bs'.array bs.cursor = sign := by
    have hp := hpres' bs.cursor (by rw [hc1]; omega)
    rw [hp, hbs1]
    exact getBit_setBitArr_self sign (by omega)
  -- decode
  set sl : Slice := Slice.mk bs'.array bs'.length bs.cursor [] 0 with hsl
  have hlb : sl.loadBit = .ok (sign, Slice.mk bs'.array bs'.length (bs.cursor + 1) [] 0) := by
    rw [hsl, loadBit_spec _ (by simp; omega)]
    simp [hsignbit]
  obtain ⟨s2, hok3, ha3, hl3, hr3⟩ :=
    loadUint_spec (Slice.mk bs'.array bs'.length (bs.cursor + 1) [] 0) (w - 1)
      (by omega) (by simp; omega)
  have hval : bitsValue bs'.array (bs.cursor + 1) (w - 1) = m := by
    apply bitsValue_eq_of_testBit (w - 1) bs'.array (bs.cursor + 1) m hmlt
    intro i hi
    have := hbits' i hi (by rw [hc1, ha1len]; omega)
    rw [hc1] at this
    have he : bs.cursor + 1 + i = bs.cursor + (1 + i) := by omega
    rw [he, ← Nat.add_assoc] at this
    have he2 : bs.cursor + 1 + i = bs.cursor + 1 + i := rfl
    simpa [Nat.add_assoc] using this
  simp only [Slice.array_mk, Slice.readCursor_mk] at hok3 ha3 hl3 hr3
  rw [hval] at hok3
  refine ⟨bs', s2, hwrite, ?_, by rw [hr3]; omega⟩
  unfold Slice.loadInt
  rw [if_neg (by omega : ¬ w < 1)]
  rw [hlb]
  simp only [bind, Except.bind]
  rw [if_neg (by omega : ¬ w = 1)]
  rw [hok3]
  simp only [bind, Except.bind]
  congr 2
  by_cases hn : n < 0
  · have hsgn : sign = true := by rw [hsign]; simp [hn]
    rw [hsgn, if_pos rfl, hm_eq, if_pos hn]
    ring
  · have hsgn : sign = false := by rw [hsign]; simp [hn]
    rw [hsgn, if_neg (by simp), hm_eq, if_neg hn]

/-- Witness for C4: writing `-3` with width 4 into a fresh 16-bit buffer
and reading it back yields `-3`. -/
theorem C4_witness :
    ∃ bs' s', (BitString.new 16).writeInt (-3) 4 = .ok bs' ∧
      (Slice.mk bs'.array bs'.length (BitString.new 16).cursor [] 0).loadInt 4
        = .ok (-3, s') ∧
      s'.readCursor = (BitString.new 16).cursor + 4 :=
  C4_signed_round_trip (BitString.new 16) (-3) 4 (by norm_num) (by norm_num)
    (by norm_num) (by decide) (by decide)

/-!  Claim C8: the size-field clamp of `toBoc`. -/

@[simp] theorem BitString.new_cursor (len : Nat) : (BitString.new len).cursor = 0 := rfl

@[simp] theorem BitString.new_length (len : Nat) : (BitString.new len).length = len := rfl

theorem bitStrLen_pos (n : Nat) : 1 ≤ bitStrLen n := by
  unfold bitStrLen
  split <;> omega

theorem bitStrLen_gt_of_ge_two_pow {n w : Nat} (h : 2 ^ w ≤ n) : w < bitStrLen n := by
  have hp : 0 < 2 ^ w := pow_pos (by norm_num) w
  have hn : n ≠ 0 := by omega
  unfold bitStrLen
  rw [if_neg hn]
  have hiff : Nat.log2 n < w ↔ n < 2 ^ w := Nat.log2_lt hn
  by_contra hcon
  have hlt : Nat.log2 n < w := by omega
  have := hiff.mp hlt
  omega

/-- Oversized values error in `writeUint` (for a positive width). -/
theorem writeUint_error_of_toobig (bs : BitString) {n w : Nat}
    (hw : 1 ≤ w) (h : w < bitStrLen n) (hn : n ≠ 0) :
    bs.writeUint n w = .error "bitLength is too small for number" := by
  unfold BitString.writeUint
  rw [if_neg (by omega), if_pos (by omega), if_neg hn]

theorem writeBitList_ok (l : List Bool) (bs : BitString)
    (h : bs.cursor + l.length ≤ bs.length + 1) :
    ∃ bs', bs.writeBitList l = .ok bs' ∧
      bs'.cursor = bs.cursor + l.length ∧ bs'.length = bs.length := by
  obtain ⟨bs', hok, hcur, hlen, -, -, -⟩ := writeBitList_spec l bs h
  exact ⟨bs', hok, hcur, hlen⟩

theorem writeUint_ok (bs : BitString) (n w : Nat)
    (hw : 1 ≤ w) (hn : n < 2 ^ w) (hcap : bs.cursor + w ≤ bs.length + 1) :
    ∃ bs', bs.writeUint n w = .ok bs' ∧
      bs'.cursor = bs.cursor + w ∧ bs'.length = bs.length := by
  obtain ⟨bs', hok, hcur, hlen, -, -, -⟩ := writeUint_spec bs n w hw hn hcap
  exact ⟨bs', hok, hcur, hlen⟩

theorem writeBytes_ok (l : List Nat) (bs : BitString)
    (hl : ∀ b ∈ l, b < 256) (hcap : bs.cursor + 8 * l.length ≤ bs.length + 1) :
    ∃ bs', bs.writeBytes l = .ok bs' ∧
      bs'.cursor = bs.cursor + 8 * l.length ∧ bs'.length = bs.length := by
  induction l generalizing bs with
  | nil => exact ⟨bs, rfl, by simp, rfl⟩
  | cons b rest ih =>
    simp only [List.length_cons] at hcap
    obtain ⟨bs1, hok1, hcur1, hlen1⟩ :=
      writeUint_ok bs (b) (8) (by omega)
        (by have := hl b (by simp); omega) (by omega)
    obtain ⟨bs', hok', hcur', hlen'⟩ := ih bs1
      (fun x hx => hl x (by simp [hx])) (by omega)
    refine ⟨bs', ?_, ?_, by omega⟩
    · simp only [BitString.writeBytes, BitString.writeUint8, bind, Except.bind, hok1]
      exact hok'
    · simp only [List.length_cons]
      omega

theorem sBytesOf_eq_one (n : Nat) : sBytesOf n = 1 := by
  have := bitStrLen_pos n
  unfold sBytesOf
  omega

theorem offsetBytesOf_eq_one {n : Nat} (h : n ≤ 255) : offsetBytesOf n = 1 := by
  have hle : bitStrLen n ≤ 8 := (bitStrLen_le_iff (by norm_num)).mpr (by norm_num; omega)
  have := bitStrLen_pos n
  unfold offsetBytesOf
  omega

/-- C8: the serializer's size field `s_bytes = min(ceil(bits(cells_num)/8), 1)`
equals 1 for every cell count, so `cells_num`, `roots_num`, `absent_num` and
the root index are all written as 8-bit fields; consequently the header
write of `toBoc` fails (inside `writeUint`) for every topological order of
more than 255 cells, instead of emitting a truncated count, and succeeds
for cell counts up to 255 (with a representative bound `full_size ≤ 255`
on the total body size and the in-range flag field `flags ≤ 3`;
`flags = 0` in the source). -/
theorem C8_sBytes_clamp (cells_num full_size : Nat)
    (has_idx hash_crc32 has_cache_bits : Bool) (flags : Nat) :
    sBytesOf cells_num = 1 ∧
    (255 < cells_num → ∀ x,
      toBocHeader cells_num full_size has_idx hash_crc32 has_cache_bits flags
        ≠ .ok x) ∧
    (1 ≤ cells_num → cells_num ≤ 255 → full_size ≤ 255 → flags ≤ 3 →
      ∃ x, toBocHeader cells_num full_size has_idx hash_crc32 has_cache_bits flags
        = .ok x) := by
  have hsb := sBytesOf_eq_one cells_num
  have hmag : reachBocMagic.length = 4 := rfl
  have hmagb : ∀ b ∈ reachBocMagic, b < 256 := by decide
  have h256 : (2 : Nat) ^ 8 = 256 := by norm_num
  refine ⟨hsb, ?_, ?_⟩
  · -- failure for more than 255 cells
    intro hbig x
    have hlen0 : (BitString.new ((1023 + 32 * 4 + 32 * 3) * cells_num)).length
        = (1023 + 32 * 4 + 32 * 3) * cells_num := rfl
    obtain ⟨b1, hok1, hcur1, hlen1⟩ :=
      writeBytes_ok reachBocMagic (BitString.new ((1023 + 32 * 4 + 32 * 3) * cells_num))
        hmagb (by rw [hmag, hlen0]; simp; omega)
    rw [hmag] at hcur1
    rw [hlen0] at hlen1
    simp only [BitString.new_cursor] at hcur1
    obtain ⟨b2, hok2, hcur2, hlen2⟩ :=
      writeBitList_ok [has_idx, hash_crc32, has_cache_bits] b1 (by simp; omega)
    simp only [List.length_cons, List.length_nil] at hcur2
    by_cases hfl : flags ≤ 3
    · obtain ⟨b3, hok3, hcur3, hlen3⟩ :=
        writeUint_ok b2 (flags) (2) (by norm_num) (by norm_num; omega)
          (by omega)
      obtain ⟨b4, hok4, hcur4, hlen4⟩ :=
        writeUint_ok b3 (sBytesOf cells_num) (3) (by norm_num)
          (by rw [hsb]; norm_num) (by omega)
      by_cases hob : offsetBytesOf full_size ≤ 255
      · obtain ⟨b5, hok5, hcur5, hlen5⟩ :=
          writeUint_ok b4 (offsetBytesOf full_size) (8) (by norm_num)
            (by omega) (by omega)
        have herr : b5.writeUint cells_num (sBytesOf cells_num * 8)
            = .error "bitLength is too small for number" := by
          apply writeUint_error_of_toobig b5 (by rw [hsb]; norm_num) ?_ (by omega)
          rw [hsb, one_mul]
          exact bitStrLen_gt_of_ge_two_pow (by omega)
        unfold toBocHeader
        simp only [bind, Except.bind, hok1, hok2, hok3, hok4, hok5, herr,
          BitString.writeUint8]
        simp
      · have herr : b4.writeUint8 (offsetBytesOf full_size)
            = .error "bitLength is too small for number" := by
          unfold BitString.writeUint8
          apply writeUint_error_of_toobig b4 (by norm_num) ?_ (by omega)
          exact bitStrLen_gt_of_ge_two_pow (by omega)
        unfold toBocHeader
        simp only [bind, Except.bind, hok1, hok2, hok3, hok4, herr]
        simp
    · have herr : b2.writeUint flags 2
          = .error "bitLength is too small for number" := by
        apply writeUint_error_of_toobig b2 (by norm_num) ?_ (by omega)
        exact bitStrLen_gt_of_ge_two_pow (by norm_num; omega)
      unfold toBocHeader
      simp only [bind, Except.bind, hok1, hok2, herr]
      simp
  · -- success for at most 255 cells
    intro hcn1 hcn255 hfs hfl
    have hlen0 : (BitString.new ((1023 + 32 * 4 + 32 * 3) * cells_num)).length
        = (1023 + 32 * 4 + 32 * 3) * cells_num := rfl
    have hbig : 1247 ≤ (1023 + 32 * 4 + 32 * 3) * cells_num := by omega
    obtain ⟨b1, hok1, hcur1, hlen1⟩ :=
      writeBytes_ok reachBocMagic (BitString.new ((1023 + 32 * 4 + 32 * 3) * cells_num))
        hmagb (by rw [hmag, hlen0]; simp; omega)
    rw [hmag] at hcur1
    rw [hlen0] at hlen1
    simp only [BitString.new_cursor] at hcur1
    obtain ⟨b2, hok2, hcur2, hlen2⟩ :=
      writeBitList_ok [has_idx, hash_crc32, has_cache_bits] b1 (by simp; omega)
    simp only [List.length_cons, List.length_nil] at hcur2
    obtain ⟨b3, hok3, hcur3, hlen3⟩ :=
      writeUint_ok b2 (flags) (2) (by norm_num) (by norm_num; omega)
        (by omega)
    obtain ⟨b4, hok4, hcur4, hlen4⟩ :=
      writeUint_ok b3 (sBytesOf cells_num) (3) (by norm_num)
        (by rw [hsb]; norm_num) (by omega)
    obtain ⟨b5, hok5, hcur5, hlen5⟩ :=
      writeUint_ok b4 (offsetBytesOf full_size) (8) (by norm_num)
        (by rw [offsetBytesOf_eq_one hfs]; norm_num) (by omega)
    obtain ⟨b6, hok6, hcur6, hlen6⟩ :=
      writeUint_ok b5 (cells_num) (sBytesOf cells_num * 8)
        (by rw [hsb]; norm_num) (by rw [hsb, one_mul, h256]; omega)
        (by rw [hsb]; omega)
    rw [hsb, one_mul] at hcur6
    obtain ⟨b7, hok7, hcur7, hlen7⟩ :=
      writeUint_ok b6 (1) (sBytesOf cells_num * 8)
        (by rw [hsb]; norm_num) (by rw [hsb]; norm_num) (by rw [hsb]; omega)
    rw [hsb, one_mul] at hcur7
    obtain ⟨b8, hok8, hcur8, hlen8⟩ :=
      writeUint_ok b7 (0) (sBytesOf cells_num * 8)
        (by rw [hsb]; norm_num) (by rw [hsb]; norm_num) (by rw [hsb]; omega)
    rw [hsb, one_mul] at hcur8
    obtain ⟨b9, hok9, hcur9, hlen9⟩ :=
      writeUint_ok b8 (full_size) (offsetBytesOf full_size * 8)
        (by rw [offsetBytesOf_eq_one hfs]; norm_num)
        (by rw [offsetBytesOf_eq_one hfs, one_mul, h256]; omega)
        (by rw [offsetBytesOf_eq_one hfs]; omega)
    rw [offsetBytesOf_eq_one hfs, one_mul] at hcur9
    obtain ⟨b10, hok10, hcur10, hlen10⟩ :=
      writeUint_ok b9 (0) (sBytesOf cells_num * 8)
        (by rw [hsb]; norm_num) (by rw [hsb]; norm_num) (by rw [hsb]; omega)
    refine ⟨b10, ?_⟩
    unfold toBocHeader
    simp only [bind, Except.bind, BitString.writeUint8, hok1, hok2, hok3, hok4,
      hok5, hok6, hok7, hok8, hok9, hok10]

/-- Witness for C8 at one cell and an empty body: `s_bytes = 1` and the
header write succeeds. -/
theorem C8_witness :
    sBytesOf 1 = 1 ∧
    (∃ x, toBocHeader 1 0 true true false 0 = .ok x) :=
  ⟨(C8_sBytes_clamp 1 0 true true false 0).1,
   (C8_sBytes_clamp 1 0 true true false 0).2.2 (by norm_num) (by norm_num)
     (by norm_num) (by norm_num)⟩

/-!  Claim C9: the Fift hex convention of `toHex`
(boc/BitString.ts lines 232-249). -/

/-- JS `String.prototype.toUpperCase` restricted to ASCII, the only
characters arising here (`bytesToHex` emits hex digits, `toHex` adds the
underscore tag): lower-case letters are shifted to upper case, everything
else is kept. -/
def charUpperAscii (c : Char) : Char :=
  if 97 ≤ c.toNat ∧ c.toNat ≤ 122 then Char.ofNat (c.toNat - 32) else c

def strUpperAscii (s : String) : String :=
  ⟨s.toList.map charUpperAscii⟩

/-- Digit of the source lookup table `to_hex_array` (utils/Utils.ts lines
9-16): `ord.toString(16)` produces lower-case digits, left-padded with "0"
to two characters, so entry `b` is the digit pair `b / 16`, `b % 16`. -/
def hexDigitLower (n : Nat) : Char :=
  ("0123456789abcdef".toList).getD n '0'

/-- Source `bytesToHex(buffer)` (utils/Utils.ts lines 19-24): the
concatenation of `to_hex_array[buffer[i]]` over the bytes, two lower-case
hex digits per byte. -/
def bytesToHex (bytes : List Nat) : String :=
  ⟨bytes.flatMap (fun b => [hexDigitLower (b / 16), hexDigitLower (b % 16)])⟩

/-- Aligned branch of `toHex` (cursor divisible by 4):
`bytesToHex(this.array.slice(0, Math.ceil(this.cursor / 8))).toUpperCase()`;
when the cursor is not byte-aligned the final hex digit covers only the
written half of the last byte, and `s.slice(0, -1)` drops it. -/
def BitString.alignedHex (bs : BitString) : String :=
  if bs.cursor % 8 = 0 then
    strUpperAscii (bytesToHex (bs.array.take ((bs.cursor + 7) / 8)))
  else
    (strUpperAscii (bytesToHex (bs.array.take ((bs.cursor + 7) / 8)))).dropRight 1

/-- While loop of the unaligned branch of `toHex`
(`while (temp.cursor % 4 !== 0) temp.writeBit(0)`).  A step runs only while
the cursor is unaligned and each step advances the cursor by one, so at
most three bits are ever written; the fuel argument (3 at the call site)
only makes the recursion structural. -/
def BitString.padToNibble : BitString → Nat → Except String BitString
  | bs, 0 => .ok bs
  | bs, k + 1 =>
    if bs.cursor % 4 = 0 then .ok bs
    else
      match bs.writeBit false with
      | .error e => .error e
      | .ok b1 => b1.padToNibble k

theorem padToNibble_aligned : ∀ (k : Nat) (bs bs' : BitString),
    (4 - bs.cursor % 4) % 4 ≤ k → bs.padToNibble k = .ok bs' →
    bs'.cursor % 4 = 0 := by
  intro k
  induction k with
  | zero =>
    intro bs bs' hm hok
    injection hok with h
    subst h
    omega
  | succ j ih =>
    intro bs bs' hm hok
    rw [BitString.padToNibble] at hok
    by_cases hc : bs.cursor % 4 = 0
    · rw [if_pos hc] at hok
      injection hok with h
      subst h
      exact hc
    · rw [if_neg hc] at hok
      cases hwb : bs.writeBit false with
      | error e => rw [hwb] at hok; cases hok
      | ok b1 =>
        rw [hwb] at hok
        have hb1 : b1.cursor = bs.cursor + 1 := by
          rw [writeBit_eq] at hwb
          split at hwb
          · injection hwb with h
            rw [← h]
          · cases hwb
        exact ih b1 bs' (by omega) hok

/-- Source `toHex()`: if the cursor is a multiple of 4, hex the used bytes
(dropping the last digit unless byte-aligned); otherwise, on a clone,
append a 1 bit, pad with 0 bits to the next multiple of 4, hex that and
append the `_` marker.  The source's recursive call `temp.toHex()` always
lands in the aligned branch — the padded cursor is a multiple of 4
(`padToNibble_aligned`) — so it appears here inlined as `alignedHex`; the
source's outer `.toUpperCase()` on that already upper-case result is the
identity and is dropped. -/
def BitString.toHex (bs : BitString) : Except String String :=
  if bs.cursor % 4 = 0 then .ok bs.alignedHex
  else do
    let t1 ← bs.writeBit true
    let t2 ← t1.padToNibble 3
    .ok (t2.alignedHex ++ "_")

/-- C9: the Fift hex convention on concrete inputs: a fresh cell buffer
hexes to the empty string; a single 1 bit to "C_"; bits 1,0,1,0 to "A";
bits 1,0,1,1 to "B"; and bits 1,0,1,1,1 to "BC_". -/
theorem C9_toHex_cases :
    (BitString.new 1023).toHex = .ok "" ∧
    ((BitString.new 1023).writeBitList [true]
      >>= BitString.toHex) = .ok "C_" ∧
    ((BitString.new 1023).writeBitList [true, false, true, false]
      >>= BitString.toHex) = .ok "A" ∧
    ((BitString.new 1023).writeBitList [true, false, true, true]
      >>= BitString.toHex) = .ok "B" ∧
    ((BitString.new 1023).writeBitList [true, false, true, true, true]
      >>= BitString.toHex) = .ok "BC_" :=
  ⟨rfl, rfl, rfl, rfl, rfl⟩

/-!  Claim C3: the top-upped round trip. -/

theorem getBit_take {arr : List Nat} {k p : Nat} (h : p / 8 < k) :
    getBit (arr.take k) p = getBit arr p := by
  unfold getBit
  congr 1
  simp [List.getD, List.getElem?_take_of_lt h]

/-- Behaviour of the sentinel scan `findEndBit`: when the cursor sits
`tu ∈ [1, fuel]` positions past `c`, every bit strictly between `c` and
the cursor is 0 and bit `c` is 1, the scan stops at `c`, clears it and
leaves the cursor at `c`. -/
theorem findEndBit_spec (fuel : Nat) :
    ∀ (st : BitString) (tu c : Nat), st.cursor = c + tu → 1 ≤ tu → tu ≤ fuel →
    c ≤ st.length →
    (∀ i, c < i → i < c + tu → getBit st.array i = false) →
    getBit st.array c = true →
    st.findEndBit fuel = .ok ⟨setBitArr st.array c false, c, st.length⟩ := by
  induction fuel with
  | zero =>
    intro st tu c _ h1 h2 _ _ _
    omega
  | succ f ih =>
    intro st tu c hcur h1 h2 hcle hzeros hone
    rw [BitString.findEndBit]
    by_cases htu : tu = 1
    · have hc : st.cursor - 1 = c := by omega
      rw [hc, hone, if_pos rfl]
      unfold BitString.off BitString.checkRange
      rw [if_neg (by simp; omega)]
      simp [bind, Except.bind, setBitArr]
    · have hcur1 : st.cursor - 1 = c + (tu - 1) := by omega
      have hz := hzeros (c + (tu - 1)) (by omega) (by omega)
      rw [hcur1, hz, if_neg (by simp)]
      have hrec := ih { st with cursor := c + (tu - 1) } (tu - 1) c
        (by simp) (by omega) (by omega) (by simp; omega)
        (fun i hi1 hi2 => hzeros i hi1 (by omega)) hone
      simpa using hrec

/-- C3 counterexample: in a `BitString` of capacity 1 holding one written
bit, `getTopUppedArray` does not top up and round-trip — it throws
"BitString overflow", because the padding writes run past the capacity
(positions 2..7 exceed `length = 1`). -/
theorem C3_counterexample :
    ((BitString.new 1).writeBit true >>= BitString.getTopUppedArray)
      = .error "BitString overflow" := rfl

/-- C3 (amended): the top-upped round trip holds for every `BitString` of
capacity at most 1023 whose buffer is canonical
(`|array| = ceil(length/8)`) and whose top-up stays inside `checkRange`,
i.e. `ceil(cursor/8) * 8 ≤ length + 1` (automatic whenever
`length % 8 ∈ {0, 7}`, in particular for the 1023-bit cell buffers, but
false e.g. for capacity 1 — see `C3_counterexample`): then
`setTopUppedArray(getTopUppedArray(B), cursor % 8 == 0)` on a fresh
`BitString` restores the cursor and every bit below it. -/
theorem C3_topUpped_round_trip (bs : BitString)
    (hc : bs.cursor ≤ bs.length) (hcap : bs.length ≤ 1023)
    (harr : bs.array.length = (bs.length + 7) / 8)
    (hfit : (bs.cursor + 7) / 8 * 8 ≤ bs.length + 1) :
    ∃ arr bs', bs.getTopUppedArray = .ok arr ∧
      (BitString.new 0).setTopUppedArray arr (bs.cursor % 8 == 0) = .ok bs' ∧
      bs'.cursor = bs.cursor ∧
      (∀ p, p < bs.cursor → getBit bs'.array p = getBit bs.array p) := by
  by_cases hmod : bs.cursor % 8 = 0
  · -- byte-aligned cursor: no top-up bits are written
    have htake : (bs.array.take ((bs.cursor + 7) / 8)).length = bs.cursor / 8 := by
      rw [List.length_take]
      omega
    refine ⟨bs.array.take ((bs.cursor + 7) / 8),
      ⟨bs.array.take ((bs.cursor + 7) / 8),
        (bs.array.take ((bs.cursor + 7) / 8)).length * 8,
        (bs.array.take ((bs.cursor + 7) / 8)).length * 8⟩, ?_, ?_, ?_, ?_⟩
    · unfold BitString.getTopUppedArray
      rw [if_neg (by omega)]
      simp [bind, Except.bind]
    · simp [BitString.setTopUppedArray, hmod]
    · show (bs.array.take ((bs.cursor + 7) / 8)).length * 8 = bs.cursor
      rw [htake]
      omega
    · intro p hp
      exact getBit_take (by omega)
  · -- unaligned cursor: a 1 bit and zeros are appended, then found again
    have h1 : 0 < (bs.cursor + 7) / 8 * 8 - bs.cursor := by omega
    have hwb : bs.writeBit true
        = .ok ⟨setBitArr bs.array bs.cursor true, bs.cursor + 1, bs.length⟩ := by
      rw [writeBit_eq, if_pos (by omega)]
    set b1 : BitString := ⟨setBitArr bs.array bs.cursor true, bs.cursor + 1, bs.length⟩
      with hb1
    have hb1arr : b1.array.length = bs.array.length := by
      rw [hb1]
      simp [setBitArr]
    obtain ⟨ret, hok2, hcur2, hlen2, halen2, hbits2, hpres2⟩ :=
      writeBitList_spec (List.replicate ((bs.cursor + 7) / 8 * 8 - bs.cursor - 1) false)
        b1 (by simp [hb1]; omega)
    have hcr : ret.cursor = (bs.cursor + 7) / 8 * 8 := by
      rw [hcur2]
      simp [hb1]
      omega
    have hral : ret.array.length = bs.array.length := by rw [halen2, hb1arr]
    -- the bit at the old cursor is the sentinel 1
    have hsent : getBit ret.array bs.cursor = true := by
      have hp := hpres2 bs.cursor (by simp [hb1])
      rw [hp, hb1]
      exact getBit_setBitArr_self true (by omega)
    -- the padded zeros
    have hzeros : ∀ i, bs.cursor < i → i < (bs.cursor + 7) / 8 * 8 →
        getBit ret.array i = false := by
      intro i hi1 hi2
      have hidx : i - (bs.cursor + 1) < (List.replicate
          ((bs.cursor + 7) / 8 * 8 - bs.cursor - 1) false).length := by
        simp
        omega
      have := hbits2 (i - (bs.cursor + 1)) hidx (by simp [hb1, hb1arr]; omega)
      rw [List.get_replicate] at this
      have he : b1.cursor + (i - (bs.cursor + 1)) = i := by simp [hb1]; omega
      rw [he] at this
      exact this
    -- bits below the cursor are untouched
    have hlow : ∀ p, p < bs.cursor → getBit ret.array p = getBit bs.array p := by
      intro p hp
      have h2 := hpres2 p (by simp [hb1]; omega)
      rw [h2, hb1]
      exact getBit_setBitArr_ne true (by omega)
    -- the emitted byte array
    set arr : List Nat := ret.array.take ((ret.cursor + 7) / 8) with harrdef
    have halen : arr.length = (bs.cursor + 7) / 8 := by
      rw [harrdef, List.length_take, hcr, hral]
      omega
    have hget : bs.getTopUppedArray = .ok arr := by
      unfold BitString.getTopUppedArray
      rw [if_pos h1]
      simp only [bind, Except.bind, hwb, writeZeros_eq, hok2]
    -- decode: the sentinel scan finds the 1 bit at the old cursor
    have hfind : (⟨arr, arr.length * 8, arr.length * 8⟩ : BitString).findEndBit 7
        = .ok ⟨setBitArr arr bs.cursor false, bs.cursor, arr.length * 8⟩ := by
      have := findEndBit_spec 7 ⟨arr, arr.length * 8, arr.length * 8⟩
        ((bs.cursor + 7) / 8 * 8 - bs.cursor) bs.cursor
        (by simp only []; rw [halen]; omega) (by omega) (by omega)
        (by simp only []; omega)
        (fun i hi1 hi2 => by
          simp only [] at hi2 ⊢
          rw [harrdef, getBit_take (by omega)]
          exact hzeros i hi1 (by omega))
        (by
          simp only []
          rw [harrdef, getBit_take (by omega)]
          exact hsent)
      simpa using this
    refine ⟨arr, ⟨setBitArr arr bs.cursor false, bs.cursor, arr.length * 8⟩,
      hget, ?_, rfl, ?_⟩
    · unfold BitString.setTopUppedArray
      have hbeq : (bs.cursor % 8 == 0) = false := by simp [hmod]
      have hne : ¬ (arr.length * 8 = 0) := by rw [halen]; omega
      rw [if_neg (by simp [hbeq, hne])]
      exact hfind
    · intro p hp
      simp only []
      rw [getBit_setBitArr_ne false (by omega), harrdef,
        getBit_take (by omega)]
      exact hlow p hp

/-- Witness for C3 at a 16-bit buffer holding the three bits 1,0,1. -/
theorem C3_witness :
    ∃ arr bs',
      (⟨[160, 0], 3, 16⟩ : BitString).getTopUppedArray = .ok arr ∧
      (BitString.new 0).setTopUppedArray arr
        ((⟨[160, 0], 3, 16⟩ : BitString).cursor % 8 == 0) = .ok bs' ∧
      bs'.cursor = (⟨[160, 0], 3, 16⟩ : BitString).cursor ∧
      (∀ p, p < (⟨[160, 0], 3, 16⟩ : BitString).cursor →
        getBit bs'.array p = getBit (⟨[160, 0], 3, 16⟩ : BitString).array p) :=
  C3_topUpped_round_trip ⟨[160, 0], 3, 16⟩ (by decide) (by decide)
    (by decide) (by decide)

/-!  Claim C2: the deserializer's topological check. -/

/-- Denotation of the fully resolved array entry `j` (all transients
replaced by the cells they index). -/
def resolvedAt (raws : List RawCell) (j : Nat) : PartCell :=
  match raws.get? j with
  | none => ⟨[], [], false⟩
  | some rc => ⟨rc.bits, rc.refIdx.map (fun r => Sum.inr (resolveCell raws r)), rc.isExotic⟩

/-- Denotation of the fully resolved `cells_array`. -/
def resolvedAll (raws : List RawCell) : List PartCell :=
  (List.range raws.length).map (resolvedAt raws)

theorem resolveRefList_ok_iff (st : List PartCell) (ci : Nat) :
    ∀ (refs : List (Nat ⊕ Cell)),
    (∃ out, resolveRefList st ci refs = .ok out) ↔
      (∀ r, Sum.inl r ∈ refs → ci ≤ r) := by
  intro refs
  induction refs with
  | nil => simp [resolveRefList]
  | cons hd rest ih =>
    cases hd with
    | inr c =>
      rw [resolveRefList]
      constructor
      · rintro ⟨out, hout⟩ r hr
        rcases hrest : resolveRefList st ci rest with e | rest'
        · rw [hrest] at hout
          simp [bind, Except.bind] at hout
        · exact ih.mp ⟨rest', hrest⟩ r (by simpa using hr)
      · intro h
        obtain ⟨rest', hrest⟩ := ih.mpr (fun r hr => h r (by simp [hr]))
        exact ⟨_, by rw [hrest]; exact rfl⟩
    | inl r0 =>
      rw [resolveRefList]
      by_cases hlt : r0 < ci
      · rw [if_pos hlt]
        constructor
        · rintro ⟨out, hout⟩
          cases hout
        · intro h
          have := h r0 (by simp)
          omega
      · rw [if_neg hlt]
        constructor
        · rintro ⟨out, hout⟩ r hr
          rcases (by simpa using hr : r = r0 ∨ Sum.inl r ∈ rest) with h | h
          · omega
          · rcases hrest : resolveRefList st ci rest with e | rest'
            · rw [hrest] at hout
              simp [bind, Except.bind] at hout
            · exact ih.mp ⟨rest', hrest⟩ r h
        · intro h
          obtain ⟨rest', hrest⟩ := ih.mpr (fun r hr => h r (by simp [hr]))
          exact ⟨_, by rw [hrest]; exact rfl⟩

theorem resolveDown_ok_iff : ∀ (k : Nat) (st : List PartCell), k ≤ st.length →
    ((∃ st', resolveDown st k = .ok st') ↔
      ∀ i, i < k → ∀ r,
        Sum.inl r ∈ ((st.get? i).getD ⟨[], [], false⟩).refs → i ≤ r) := by
  intro k
  induction k with
  | zero =>
    intro st _
    simp [resolveDown]
  | succ j ih =>
    intro st hk
    obtain ⟨cell, hcell⟩ : ∃ c, st.get? j = some c :=
      ⟨st.get ⟨j, by omega⟩, List.get?_eq_get (by omega)⟩
    rw [resolveDown]
    unfold resolveStep
    rw [hcell]
    rcases hrl : resolveRefList st j cell.refs with e | out
    · constructor
      · rintro ⟨st', hst'⟩
        simp [bind, Except.bind, hrl] at hst'
      · intro h
        exfalso
        have hnone : ¬ ∃ out, resolveRefList st j cell.refs = .ok out := by
          rintro ⟨out, hout⟩
          rw [hrl] at hout
          cases hout
        have := (resolveRefList_ok_iff st j cell.refs).not.mp hnone
        push_neg at this
        obtain ⟨r, hr, hlt⟩ := this
        have := h j (by omega) r (by rw [hcell]; exact hr)
        omega
    · have hset : (st.set j { cell with refs := out }).length = st.length := by simp
      have hih := ih (st.set j { cell with refs := out }) (by omega)
      constructor
      · rintro ⟨st', hst'⟩ i hi r hr
        simp only [bind, Except.bind, hrl] at hst'
        by_cases hij : i = j
        · subst hij
          have hok : ∀ r, Sum.inl r ∈ cell.refs → i ≤ r :=
            (resolveRefList_ok_iff st i cell.refs).mp ⟨out, hrl⟩
          exact hok r (by rw [hcell] at hr; exact hr)
        · have hget : (st.set j { cell with refs := out }).get? i = st.get? i := by
            rw [List.get?_eq_getElem?, List.get?_eq_getElem?,
              List.getElem?_set_ne (by omega : j ≠ i)]
          exact hih.mp ⟨st', hst'⟩ i (by omega) r (by rw [hget]; exact hr)
      · intro h
        obtain ⟨st', hst'⟩ := hih.mpr (fun i hi r hr => by
          have hget : (st.set j { cell with refs := out }).get? i = st.get? i := by
            rw [List.get?_eq_getElem?, List.get?_eq_getElem?,
              List.getElem?_set_ne (by omega : j ≠ i)]
          exact h i (by omega) r (by rw [hget] at hr; exact hr))
        exact ⟨st', by simp only [bind, Except.bind, hrl]; exact hst'⟩

theorem allResolved_inr_map (g : Nat → Cell) (l : List Nat) :
    allResolved (l.map (fun r => (Sum.inr (g r) : Nat ⊕ Cell)))
      = some (l.map g) := by
  induction l with
  | nil => rfl
  | cons x xs ih => simp [allResolved, ih, bind, Option.bind]

theorem toCell?_resolvedAt (raws : List RawCell)
    (hstrict : ∀ i, (h : i < raws.length) → ∀ r ∈ (raws.get ⟨i, h⟩).refIdx,
      i < r ∧ r < raws.length) (r : Nat) (hr : r < raws.length) :
    (resolvedAt raws r).toCell? = some (resolveCell raws r) := by
  obtain ⟨rc, hrc⟩ : ∃ rc, raws.get? r = some rc :=
    ⟨raws.get ⟨r, hr⟩, List.get?_eq_get hr⟩
  have hgetm : raws.get ⟨r, hr⟩ = rc := by
    have : raws.get? r = some (raws.get ⟨r, hr⟩) := List.get?_eq_get hr
    rw [hrc] at this
    exact (Option.some.injEq _ _).mp this.symm
  have hres : resolveCell raws r
      = Cell.mk rc.bits (rc.refIdx.map (fun r' => resolveCell raws r')) rc.isExotic := by
    rw [resolveCell, hrc]
    simp only []
    congr 1
    apply List.map_congr_left
    intro r' hr'
    rw [dif_pos]
    have := hstrict r hr
    rw [hgetm] at this
    exact this r' hr'
  unfold resolvedAt PartCell.toCell?
  rw [hrc]
  simp only []
  rw [allResolved_inr_map]
  simp only [Option.bind, hres]
  rfl

theorem resolveRefList_resolves (st : List PartCell) (raws : List RawCell) (ci : Nat) :
    ∀ (rs : List Nat),
    (∀ r ∈ rs, ci ≤ r) →
    (∀ r ∈ rs, st.get? r = some (resolvedAt raws r)) →
    (∀ r ∈ rs, (resolvedAt raws r).toCell? = some (resolveCell raws r)) →
    resolveRefList st ci (rs.map Sum.inl)
      = .ok (rs.map (fun r => Sum.inr (resolveCell raws r))) := by
  intro rs
  induction rs with
  | nil =>
    intro _ _ _
    rfl
  | cons x xs ih =>
    intro hge hst hc
    rw [List.map_cons, resolveRefList,
      if_neg (by have := hge x (by simp); omega)]
    rw [ih (fun r h => hge r (by simp [h])) (fun r h => hst r (by simp [h]))
      (fun r h => hc r (by simp [h]))]
    simp only [hst x (by simp), hc x (by simp)]
    exact rfl

theorem resolvedAll_get? (raws : List RawCell) (j : Nat) :
    (resolvedAll raws).get? j
      = if j < raws.length then some (resolvedAt raws j) else none := by
  unfold resolvedAll
  by_cases hj : j < raws.length
  · rw [if_pos hj, List.get?_map, List.get?_range hj]
    rfl
  · rw [if_neg hj, List.get?_eq_none.mpr (by simp; omega)]

theorem resolveDown_resolves (raws : List RawCell)
    (hstrict : ∀ i, (h : i < raws.length) → ∀ r ∈ (raws.get ⟨i, h⟩).refIdx,
      i < r ∧ r < raws.length) :
    ∀ (k : Nat) (st : List PartCell), st.length = raws.length → k ≤ raws.length →
    (∀ j, j < k → st.get? j = (raws.map RawCell.toPart).get? j) →
    (∀ j, k ≤ j → j < raws.length → st.get? j = some (resolvedAt raws j)) →
    resolveDown st k = .ok (resolvedAll raws) := by
  intro k
  induction k with
  | zero =>
    intro st hlen _ _ hres
    rw [resolveDown]
    congr 1
    apply List.ext_get?
    intro j
    rw [resolvedAll_get? raws j]
    by_cases hj : j < raws.length
    · rw [hres j (by omega) hj, if_pos hj]
    · rw [if_neg hj, List.get?_eq_none.mpr (by omega)]
  | succ jj ih =>
    intro st hlen hk huntouch hres
    have hjlt : jj < raws.length := by omega
    obtain ⟨rc, hrc⟩ : ∃ rc, raws.get? jj = some rc :=
      ⟨raws.get ⟨jj, hjlt⟩, List.get?_eq_get hjlt⟩
    have hgetm : raws.get ⟨jj, hjlt⟩ = rc := by
      have : raws.get? jj = some (raws.get ⟨jj, hjlt⟩) := List.get?_eq_get hjlt
      rw [hrc] at this
      exact (Option.some.injEq _ _).mp this.symm
    have hstj : st.get? jj = some (RawCell.toPart rc) := by
      rw [huntouch jj (by omega), List.get?_map, hrc]
      rfl
    have hstrict' : ∀ r ∈ rc.refIdx, jj < r ∧ r < raws.length := by
      have := hstrict jj hjlt
      rw [hgetm] at this
      exact this
    have hrl := resolveRefList_resolves st raws jj rc.refIdx
      (fun r h => le_of_lt (hstrict' r h).1)
      (fun r h => hres r (by have := (hstrict' r h).1; omega) (hstrict' r h).2)
      (fun r h => toCell?_resolvedAt raws hstrict r (hstrict' r h).2)
    have hrefs : (RawCell.toPart rc).refs = rc.refIdx.map Sum.inl := rfl
    rw [resolveDown]
    unfold resolveStep
    simp only [hstj, hrefs, hrl, bind, Except.bind]
    have hconv : { RawCell.toPart rc with
        refs := rc.refIdx.map (fun r => Sum.inr (resolveCell raws r)) }
        = resolvedAt raws jj := by
      unfold resolvedAt
      rw [hrc]
      rfl
    rw [hconv]
    apply ih (st.set jj (resolvedAt raws jj)) (by simp [hlen]) (by omega)
    · intro j hj
      rw [List.get?_eq_getElem?, List.getElem?_set_ne (by omega : jj ≠ j),
        ← List.get?_eq_getElem?]
      exact huntouch j (by omega)
    · intro j hge hlt
      by_cases hjj : j = jj
      · subst hjj
        rw [List.get?_eq_getElem?, List.getElem?_set_self (by omega)]
      · rw [List.get?_eq_getElem?, List.getElem?_set_ne (by omega : jj ≠ j),
          ← List.get?_eq_getElem?]
        exact hres j (by omega) hlt

/-- C2 (amended): in the reference-resolution loop of `deserializeBoc`,
the decode fails — "Topological order is broken" — exactly when some cell
`i` stores a transient index `r < i`; a self-reference `r = i` passes the
check (`if (r < ci) throw`) and does not fail, contrary to the original
claim (see `C2_counterexample`).  When every transient index is strictly
forward and in range, every transient is replaced by the cell at that
index: the loop returns the fully resolved array. -/
theorem C2_reference_resolution (raws : List RawCell) :
    ((∃ st', resolveBocRefs raws = .ok st') ↔
      (∀ i, (h : i < raws.length) → ∀ r ∈ (raws.get ⟨i, h⟩).refIdx, i ≤ r)) ∧
    ((∀ i, (h : i < raws.length) → ∀ r ∈ (raws.get ⟨i, h⟩).refIdx,
        i < r ∧ r < raws.length) →
      resolveBocRefs raws = .ok (resolvedAll raws)) := by
  constructor
  · unfold resolveBocRefs
    have hlen : raws.length ≤ (raws.map RawCell.toPart).length := by simp
    rw [resolveDown_ok_iff raws.length (raws.map RawCell.toPart) hlen]
    constructor
    · intro h i hi r hr
      refine h i hi r ?_
      rw [List.get?_map, List.get?_eq_get hi]
      simp only [Option.map_some', Option.getD_some, RawCell.toPart]
      simpa using hr
    · intro h i hi r hr
      rw [List.get?_map, List.get?_eq_get hi] at hr
      simp only [Option.map_some', Option.getD_some, RawCell.toPart] at hr
      exact h i hi r (by simpa using hr)
  · intro hstrict
    unfold resolveBocRefs
    exact resolveDown_resolves raws hstrict raws.length (raws.map RawCell.toPart)
      (by simp) (le_refl _) (fun j _ => rfl)
      (fun j hge hlt => absurd hlt (by omega))

/-- C2 counterexample: a single cell whose only transient reference is the
self-index 0 is accepted by the resolution loop (the check is `r < ci`,
not `r ≤ ci`), so the decode does not fail — refuting "a self-reference
r = i fails".  (The stored result keeps the numeric marker because a
cyclic cell value has no finite tree representation; the claim-relevant
fact is that no error is raised.) -/
theorem C2_counterexample :
    resolveBocRefs [⟨[], [0], false⟩] = .ok [⟨[], [Sum.inl 0], false⟩] := rfl

/-- Witness for C2 at a two-cell array whose first cell references the
second: resolution succeeds and substitutes the resolved child cell. -/
theorem C2_witness :
    resolveBocRefs [⟨[true], [1], false⟩, ⟨[false], [], true⟩]
      = .ok (resolvedAll [⟨[true], [1], false⟩, ⟨[false], [], true⟩]) :=
  (C2_reference_resolution [⟨[true], [1], false⟩, ⟨[false], [], true⟩]).2
    (by decide)

/-!  Claim C1: forward references in the serializer's topological order.

The proof follows the relocation rule through an exact characterization:
under the invariants of the walk, `moveToTheEnd T c` equals the cells of
`T` outside `c.reach` in their old order, followed by a canonical
order `ord c` of `c.reach` in which every edge points forward. -/

theorem sizeOf_mem_refs {x : Cell} {bs : List Bool} {rs : List Cell} {ex : Bool}
    (h : x ∈ rs) : sizeOf x < sizeOf (Cell.mk bs rs ex) := by
  have := List.sizeOf_lt_of_mem h
  simp only [Cell.mk.sizeOf_spec]
  omega

theorem sizeOf_refs_mem {x c : Cell} (h : x ∈ c.refs) : sizeOf x < sizeOf c := by
  cases c
  exact sizeOf_mem_refs h

mutual
theorem mem_reach_size : ∀ (c x : Cell), x ∈ c.reach → sizeOf x ≤ sizeOf c
  | .mk bs rs ex, x, hx => by
    rw [Cell.reach] at hx
    rcases List.mem_cons.mp hx with h | h
    · simp [h]
    · have := mem_reachList_size rs x h
      obtain ⟨y, hy, hsz⟩ := this
      have h6 : sizeOf y < sizeOf (Cell.mk bs rs ex) := sizeOf_mem_refs hy
      omega
theorem mem_reachList_size : ∀ (cs : List Cell) (x : Cell), x ∈ reachList cs →
    ∃ y ∈ cs, sizeOf x ≤ sizeOf y
  | c :: cs, x, hx => by
    rw [reachList] at hx
    rcases List.mem_append.mp hx with h | h
    · exact ⟨c, by simp, mem_reach_size c x h⟩
    · obtain ⟨y, hy, hsz⟩ := mem_reachList_size cs x h
      exact ⟨y, by simp [hy], hsz⟩
end

theorem mem_reachList_iff {cs : List Cell} {x : Cell} :
    x ∈ reachList cs ↔ ∃ y ∈ cs, x ∈ y.reach := by
  induction cs with
  | nil => simp [reachList]
  | cons c cs ih =>
    rw [reachList]
    simp only [List.mem_append, ih, List.mem_cons]
    constructor
    · rintro (h | ⟨y, hy, hx⟩)
      · exact ⟨c, Or.inl rfl, h⟩
      · exact ⟨y, Or.inr hy, hx⟩
    · rintro ⟨y, hy | hy, hx⟩
      · subst hy
        exact Or.inl hx
      · exact Or.inr ⟨y, hy, hx⟩

theorem self_mem_reach (c : Cell) : c ∈ c.reach := by
  cases c
  rw [Cell.reach]
  simp

theorem refs_mem_reach {c b : Cell} (h : b ∈ c.refs) : b ∈ c.reach := by
  cases c with
  | mk bs rs ex =>
    rw [Cell.reach]
    simp only [Cell.refs] at h
    exact List.mem_cons.mpr (Or.inr (mem_reachList_iff.mpr ⟨b, h, self_mem_reach b⟩))

theorem reach_closed : ∀ (c a b : Cell), a ∈ c.reach → b ∈ a.reach → b ∈ c.reach
  | .mk bs rs ex, a, b, ha, hb => by
    rw [Cell.reach] at ha ⊢
    rcases List.mem_cons.mp ha with h | h
    · subst h
      exact hb
    · obtain ⟨y, hy, hay⟩ := mem_reachList_iff.mp h
      have : b ∈ y.reach := reach_closed y a b hay hb
      exact List.mem_cons.mpr (Or.inr (mem_reachList_iff.mpr ⟨y, hy, this⟩))

theorem refs_reach_closed {c a b : Cell} (ha : a ∈ c.reach) (hb : b ∈ a.refs) :
    b ∈ c.reach :=
  reach_closed c a b ha (refs_mem_reach hb)

theorem not_mem_reach_of_size {a c : Cell} (h : sizeOf a < sizeOf c) :
    c ∉ a.reach :=
  fun hm => absurd (mem_reach_size a c hm) (by omega)

/-- Strict order of appearance in a list. -/
def Before (T : List Cell) (a b : Cell) : Prop := [a, b].Sublist T

theorem Before.mem_left {T : List Cell} {a b : Cell} (h : Before T a b) : a ∈ T :=
  h.subset (by simp)

theorem Before.mem_right {T : List Cell} {a b : Cell} (h : Before T a b) : b ∈ T :=
  h.subset (by simp)

theorem Before.append_left {T u : List Cell} {a b : Cell} (h : Before T a b) :
    Before (T ++ u) a b :=
  h.trans (List.sublist_append_left T u)

theorem Before.append_right {T u : List Cell} {a b : Cell} (h : Before u a b) :
    Before (T ++ u) a b :=
  h.trans (List.sublist_append_right T u)

theorem before_append_of_mem {T u : List Cell} {a b : Cell}
    (ha : a ∈ T) (hb : b ∈ u) : Before (T ++ u) a b :=
  List.Sublist.append (List.singleton_sublist.mpr ha) (List.singleton_sublist.mpr hb)

theorem Before.filter {T : List Cell} {a b : Cell} (p : Cell → Bool)
    (h : Before T a b) (hpa : p a = true) (hpb : p b = true) :
    Before (T.filter p) a b := by
  have := List.Sublist.filter p h
  simpa [Before, hpa, hpb] using this

theorem Before.cons {T : List Cell} {a b x : Cell} (h : Before T a b) :
    Before (x :: T) a b :=
  h.trans (List.sublist_cons_self x T)

theorem before_cons_of_mem {T : List Cell} {a b : Cell} (hb : b ∈ T) :
    Before (a :: T) a b :=
  List.cons_sublist_cons.mpr (List.singleton_sublist.mpr hb)

theorem Before.indexOf_lt {T : List Cell} {a b : Cell}
    (hnd : T.Nodup) (h : Before T a b) : T.indexOf a < T.indexOf b := by
  induction T with
  | nil => cases h
  | cons x t iht =>
    rw [List.nodup_cons] at hnd
    cases h with
    | cons _ h1 =>
      have ha : a ∈ t := h1.subset (by simp)
      have hb : b ∈ t := h1.subset (by simp)
      have hax : (x == a) = false := beq_eq_false_iff_ne.mpr (fun he => hnd.1 (he ▸ ha))
      have hbx : (x == b) = false := beq_eq_false_iff_ne.mpr (fun he => hnd.1 (he ▸ hb))
      rw [List.indexOf_cons, List.indexOf_cons, hax, hbx]
      simp only [cond_false]
      have := iht hnd.2 h1
      omega
    | cons₂ _ h1 =>
      have hb : b ∈ t := h1.subset (by simp)
      have hbx : (a == b) = false := beq_eq_false_iff_ne.mpr (fun he => hnd.1 (he ▸ hb))
      rw [List.indexOf_cons, List.indexOf_cons, hbx, beq_self_eq_true]
      simp only [cond_false, cond_true]
      omega

theorem before_of_indexOf_lt {T : List Cell} {a b : Cell}
    (hnd : T.Nodup) (ha : a ∈ T) (hb : b ∈ T)
    (h : T.indexOf a < T.indexOf b) : Before T a b := by
  induction T with
  | nil => cases ha
  | cons x t iht =>
    rw [List.nodup_cons] at hnd
    by_cases hax : a = x
    · subst hax
      have hbx : b ≠ a := by
        intro he
        subst he
        omega
      have hbt : b ∈ t := by
        rcases List.mem_cons.mp hb with he | ht
        · exact absurd he hbx
        · exact ht
      exact before_cons_of_mem hbt
    · have hat : a ∈ t := by
        rcases List.mem_cons.mp ha with he | ht
        · exact absurd he hax
        · exact ht
      by_cases hbxx : b = x
      · subst hbxx
        have hba : (b == a) = false := beq_eq_false_iff_ne.mpr (fun he => hax he.symm)
        rw [List.indexOf_cons, List.indexOf_cons, hba, beq_self_eq_true] at h
        simp only [cond_true, cond_false] at h
        omega
      · have hbt : b ∈ t := by
          rcases List.mem_cons.mp hb with he | ht
          · exact absurd he hbxx
          · exact ht
        have hxa : (x == a) = false := beq_eq_false_iff_ne.mpr (fun he => hax he.symm)
        have hxb : (x == b) = false := beq_eq_false_iff_ne.mpr (fun he => hbxx he.symm)
        rw [List.indexOf_cons, List.indexOf_cons, hxa, hxb] at h
        simp only [cond_false] at h
        exact (iht hnd.2 hat hbt (by omega)).cons

theorem before_total {T : List Cell} {a b : Cell}
    (ha : a ∈ T) (hb : b ∈ T) (hne : a ≠ b) : Before T a b ∨ Before T b a := by
  induction T with
  | nil => cases ha
  | cons x t iht =>
    by_cases hax : a = x
    · subst hax
      have hbt : b ∈ t := by
        rcases List.mem_cons.mp hb with he | ht
        · exact absurd he.symm hne
        · exact ht
      exact Or.inl (before_cons_of_mem hbt)
    · by_cases hbx : b = x
      · subst hbx
        have hat : a ∈ t := by
          rcases List.mem_cons.mp ha with he | ht
          · exact absurd he hax
          · exact ht
        exact Or.inr (before_cons_of_mem hat)
      · have hat : a ∈ t := by
          rcases List.mem_cons.mp ha with he | ht
          · exact absurd he hax
          · exact ht
        have hbt : b ∈ t := by
          rcases List.mem_cons.mp hb with he | ht
          · exact absurd he hbx
          · exact ht
        rcases iht hat hbt with h | h
        · exact Or.inl h.cons
        · exact Or.inr h.cons

theorem indexOf_lt_length_cell {b : Cell} :
    ∀ {T : List Cell}, b ∈ T → List.indexOf b T < T.length
  | x :: t, h => by
    rw [List.indexOf_cons]
    by_cases hxb : x = b
    · subst hxb
      rw [beq_self_eq_true]
      simp
    · rw [beq_eq_false_iff_ne.mpr hxb]
      simp only [cond_false, List.length_cons]
      have hbt : b ∈ t := by
        rcases List.mem_cons.mp h with he | ht
        · exact absurd he.symm hxb
        · exact ht
      have := indexOf_lt_length_cell hbt
      omega

theorem nodup_indexOf_get :
    ∀ (T : List Cell), T.Nodup → ∀ (i : Nat) (hi : i < T.length),
      List.indexOf (T.get ⟨i, hi⟩) T = i
  | x :: t, hnd, 0, _ => by
    simp only [List.get]
    rw [List.indexOf_cons, beq_self_eq_true]
    rfl
  | x :: t, hnd, i + 1, hi => by
    rw [List.nodup_cons] at hnd
    have hi2 : i < t.length := by simpa using hi
    simp only [List.get]
    have hmem : t.get ⟨i, hi2⟩ ∈ t := t.get_mem i hi2
    have hxg : (x == t.get ⟨i, hi2⟩) = false :=
      beq_eq_false_iff_ne.mpr (fun he => hnd.1 (he ▸ hmem))
    rw [List.indexOf_cons, hxg]
    simp only [cond_false]
    rw [nodup_indexOf_get t hnd.2 i hi2]

theorem not_mem_reachList_of_size {c : Cell} {rs : List Cell}
    (h : ∀ r ∈ rs, sizeOf r < sizeOf c) : c ∉ reachList rs := by
  intro hm
  obtain ⟨y, hy, hs⟩ := mem_reachList_size rs c hm
  exact absurd (h y hy) (by omega)

theorem self_not_mem_reachList (bs : List Bool) (rs : List Cell) (ex : Bool) :
    Cell.mk bs rs ex ∉ reachList rs :=
  not_mem_reachList_of_size (fun _ hr => sizeOf_mem_refs hr)

mutual
/-- Canonical relocated order of the sub-DAG of a cell: the cell first, then
its children's orders in sequence, each child's block keeping only the cells
not reachable from a later sibling (those get relocated again further
right).  This is the exact shape `moveToTheEnd` produces. -/
def ord : Cell → List Cell
  | .mk bs rs ex => .mk bs rs ex :: ordL rs
def ordL : List Cell → List Cell
  | [] => []
  | r :: rest => (ord r).filter (fun x => decide (x ∉ reachList rest)) ++ ordL rest
end

mutual
theorem mem_ord_iff : ∀ (c x : Cell), x ∈ ord c ↔ x ∈ c.reach
  | .mk bs rs ex, x => by
    rw [ord, Cell.reach]
    simp only [List.mem_cons]
    rw [mem_ordL_iff rs x]
theorem mem_ordL_iff : ∀ (rs : List Cell) (x : Cell), x ∈ ordL rs ↔ x ∈ reachList rs
  | [], x => by rw [ordL, reachList]
  | r :: rest, x => by
    rw [ordL, reachList]
    simp only [List.mem_append, List.mem_filter, decide_eq_true_eq]
    rw [mem_ord_iff r x, mem_ordL_iff rest x]
    constructor
    · rintro (⟨h1, _⟩ | h2)
      · exact Or.inl h1
      · exact Or.inr h2
    · rintro (h1 | h2)
      · by_cases hx : x ∈ reachList rest
        · exact Or.inr hx
        · exact Or.inl ⟨h1, hx⟩
      · exact Or.inr h2
end

mutual
theorem ord_nodup : ∀ c : Cell, (ord c).Nodup
  | .mk bs rs ex => by
    rw [ord]
    refine List.nodup_cons.mpr ⟨?_, ordL_nodup rs⟩
    intro hm
    exact self_not_mem_reachList bs rs ex ((mem_ordL_iff rs _).mp hm)
theorem ordL_nodup : ∀ rs : List Cell, (ordL rs).Nodup
  | [] => by
    rw [ordL]
    exact List.nodup_nil
  | r :: rest => by
    rw [ordL, List.nodup_append]
    refine ⟨(ord_nodup r).filter _, ordL_nodup rest, ?_⟩
    intro x hx1 hx2
    have h1 := (List.mem_filter.mp hx1).2
    simp only [decide_eq_true_eq] at h1
    exact h1 ((mem_ordL_iff rest x).mp hx2)
end

mutual
theorem ord_good : ∀ (c a : Cell), a ∈ ord c → ∀ b ∈ a.refs, Before (ord c) a b
  | .mk bs rs ex, a, ha, b, hb => by
    rw [ord] at ha ⊢
    rcases List.mem_cons.mp ha with rfl | ha2
    · refine before_cons_of_mem ?_
      rw [mem_ordL_iff]
      rw [Cell.refs] at hb
      exact mem_reachList_iff.mpr ⟨b, hb, self_mem_reach b⟩
    · exact (ordL_good rs a ha2 b hb).cons
theorem ordL_good : ∀ (rs : List Cell) (a : Cell), a ∈ ordL rs →
    ∀ b ∈ a.refs, Before (ordL rs) a b
  | [], a, ha, b, hb => by
    rw [ordL] at ha
    cases ha
  | r :: rest, a, ha, b, hb => by
    rw [ordL] at ha ⊢
    rcases List.mem_append.mp ha with ha1 | ha2
    · have haf := List.mem_filter.mp ha1
      by_cases hbr : b ∈ reachList rest
      · refine before_append_of_mem ha1 ?_
        rw [mem_ordL_iff]
        exact hbr
      · refine Before.append_left ?_
        exact (ord_good r a haf.1 b hb).filter _ haf.2 (by simpa using hbr)
    · exact (ordL_good rest a ha2 b hb).append_right
end

theorem nodup_filter_ord {T : List Cell} (hnd : T.Nodup) (c : Cell) :
    (T.filter (fun x => decide (x ∉ c.reach)) ++ ord c).Nodup := by
  rw [List.nodup_append]
  refine ⟨hnd.filter _, ord_nodup c, ?_⟩
  intro x hx1 hx2
  have h1 := (List.mem_filter.mp hx1).2
  simp only [decide_eq_true_eq] at h1
  exact h1 ((mem_ord_iff c x).mp hx2)

theorem nodup_erase_eq_filter_cell (c : Cell) :
    ∀ T : List Cell, T.Nodup → T.erase c = T.filter (fun x => decide (x ≠ c))
  | [], _ => rfl
  | x :: t, hnd => by
    rw [List.nodup_cons] at hnd
    by_cases hxc : x = c
    · subst hxc
      rw [List.erase_cons_head, List.filter_cons_of_neg (by simp)]
      symm
      refine List.filter_eq_self.mpr ?_
      intro b hb
      simp only [decide_eq_true_eq]
      exact fun he => hnd.1 (he ▸ hb)
    · rw [List.erase_cons_tail (by simpa using hxc),
        List.filter_cons_of_pos (by simpa using hxc),
        nodup_erase_eq_filter_cell c t hnd.2]

mutual
/-- Exact shape of the relocation: on a duplicate-free order, `moveToTheEnd`
keeps the cells outside the target's reach in their old relative order and
moves the whole reach of the target to the end, in the canonical order
`ord`. -/
theorem moveToTheEnd_eq : ∀ (c : Cell) (T : List Cell), T.Nodup →
    moveToTheEnd T c = T.filter (fun x => decide (x ∉ c.reach)) ++ ord c
  | .mk bs rs ex, T, hnd => by
    rw [moveToTheEnd]
    have hndE : ((T.erase (Cell.mk bs rs ex)) ++ [Cell.mk bs rs ex]).Nodup := by
      rw [nodup_erase_eq_filter_cell _ T hnd, List.nodup_append]
      refine ⟨hnd.filter _, List.nodup_singleton _, ?_⟩
      intro y hy1 hy2
      have hy3 := (List.mem_filter.mp hy1).2
      simp only [decide_eq_true_eq] at hy3
      simp only [List.mem_singleton] at hy2
      exact hy3 hy2
    rw [moveList_eq rs _ hndE, nodup_erase_eq_filter_cell _ T hnd,
      List.filter_append, List.filter_filter]
    have hc : List.filter (fun x => decide (x ∉ reachList rs)) [Cell.mk bs rs ex]
        = [Cell.mk bs rs ex] := by
      rw [List.filter_cons_of_pos (by simpa using self_not_mem_reachList bs rs ex)]
      rfl
    have hf : List.filter
        (fun a => decide (a ∉ reachList rs) && decide (a ≠ Cell.mk bs rs ex)) T
        = List.filter (fun x => decide (x ∉ (Cell.mk bs rs ex).reach)) T := by
      refine List.filter_congr ?_
      intro x _
      rw [← Bool.decide_and, decide_eq_decide, Cell.reach]
      simp only [List.mem_cons]
      tauto
    rw [hc, hf, ord]
    simp [List.append_assoc]
theorem moveList_eq : ∀ (rs : List Cell) (T : List Cell), T.Nodup →
    moveList T rs = T.filter (fun x => decide (x ∉ reachList rs)) ++ ordL rs
  | [], T, _ => by
    rw [moveList, reachList, ordL, List.append_nil]
    symm
    refine List.filter_eq_self.mpr ?_
    intro a _
    simp
  | r :: rest, T, hnd => by
    rw [moveList, moveToTheEnd_eq r T hnd,
      moveList_eq rest _ (nodup_filter_ord hnd r),
      List.filter_append, List.filter_filter, ordL, reachList]
    have hf : List.filter
        (fun a => decide (a ∉ reachList rest) && decide (a ∉ r.reach)) T
        = List.filter (fun x => decide (x ∉ (r.reach ++ reachList rest))) T := by
      refine List.filter_congr ?_
      intro x _
      rw [← Bool.decide_and, decide_eq_decide]
      simp only [List.mem_append]
      tauto
    rw [hf]
    simp [List.append_assoc]
end

theorem nodup_moveToTheEnd {T : List Cell} (hnd : T.Nodup) (c : Cell) :
    (moveToTheEnd T c).Nodup := by
  rw [moveToTheEnd_eq c T hnd]
  exact nodup_filter_ord hnd c

theorem mem_moveToTheEnd {T : List Cell} (hnd : T.Nodup) (c x : Cell) :
    x ∈ moveToTheEnd T c ↔ x ∈ T ∨ x ∈ c.reach := by
  rw [moveToTheEnd_eq c T hnd]
  simp only [List.mem_append, List.mem_filter, decide_eq_true_eq, mem_ord_iff]
  constructor
  · rintro (⟨h1, _⟩ | h2)
    · exact Or.inl h1
    · exact Or.inr h2
  · rintro (h1 | h2)
    · by_cases hx : x ∈ c.reach
      · exact Or.inr hx
      · exact Or.inl ⟨h1, hx⟩
    · exact Or.inr h2

theorem before_moveToTheEnd {T : List Cell} (hnd : T.Nodup) {c x y : Cell}
    (h : Before T x y) (hx : x ∉ c.reach) : Before (moveToTheEnd T c) x y := by
  rw [moveToTheEnd_eq c T hnd]
  by_cases hy : y ∈ c.reach
  · exact before_append_of_mem (List.mem_filter.mpr ⟨h.mem_left, by simpa using hx⟩)
      ((mem_ord_iff c y).mpr hy)
  · exact (h.filter _ (by simpa using hx) (by simpa using hy)).append_left

/-- Invariant of the walk with a ghost stack `S` of still-open cells: every
already-closed cell of the order has all its children present, each strictly
after it. -/
def WalkInv (T S : List Cell) : Prop :=
  ∀ a ∈ T, a ∉ S → ∀ b ∈ a.refs, b ∈ T ∧ Before T a b

theorem walkInv_moveToTheEnd {T S : List Cell} (hnd : T.Nodup) {c : Cell}
    (hinv : WalkInv T S) : WalkInv (moveToTheEnd T c) S := by
  intro a ha hs b hb
  rw [mem_moveToTheEnd hnd] at ha
  by_cases hac : a ∈ c.reach
  · have hbc : b ∈ c.reach := refs_reach_closed hac hb
    refine ⟨(mem_moveToTheEnd hnd c b).mpr (Or.inr hbc), ?_⟩
    rw [moveToTheEnd_eq c T hnd]
    exact (ord_good c a ((mem_ord_iff c a).mpr hac) b hb).append_right
  · have haT : a ∈ T := by
      rcases ha with h1 | h2
      · exact h1
      · exact absurd h2 hac
    obtain ⟨hbT, hbef⟩ := hinv a haT hs b hb
    exact ⟨(mem_moveToTheEnd hnd c b).mpr (Or.inl hbT),
      before_moveToTheEnd hnd hbef hac⟩

theorem reach_subset_of_walkInv : ∀ (n : Nat) (c : Cell), sizeOf c ≤ n →
    ∀ (T S : List Cell), WalkInv T S → c ∈ T → (∀ s ∈ S, sizeOf c < sizeOf s) →
    ∀ x ∈ c.reach, x ∈ T := by
  intro n
  induction n with
  | zero =>
    intro c hc
    cases c with
    | mk bs rs ex =>
      rw [Cell.mk.sizeOf_spec] at hc
      omega
  | succ n ih =>
    intro c hc T S hinv hmem hS x hx
    cases c with
    | mk bs rs ex =>
      rw [Cell.reach] at hx
      rcases List.mem_cons.mp hx with rfl | hx2
      · exact hmem
      · obtain ⟨y, hy, hxy⟩ := mem_reachList_iff.mp hx2
        have hcs : Cell.mk bs rs ex ∉ S := fun hcS => absurd (hS _ hcS) (by omega)
        obtain ⟨hyT, _⟩ := hinv _ hmem hcs y (by rw [Cell.refs]; exact hy)
        have hysz : sizeOf y < sizeOf (Cell.mk bs rs ex) := sizeOf_mem_refs hy
        have hcsz : sizeOf (Cell.mk bs rs ex) ≤ n + 1 := hc
        have hyn : sizeOf y ≤ n := by omega
        exact ih y hyn T S hinv hyT (fun s hs => by have := hS s hs; omega) x hxy

mutual
/-- Main walk lemma: a `treeWalk` step preserves duplicate-freeness and the
walk invariant, adds exactly the reach of the visited cell, keeps the
relative order of cells outside that reach, and ends with the parent
strictly before the visited cell. -/
theorem treeWalk_spec : ∀ (c : Cell) (T : List Cell) (parent : Option Cell)
    (S : List Cell), T.Nodup → WalkInv T S → (∀ s ∈ S, sizeOf c < sizeOf s) →
    (∀ p, parent = some p → p ∈ T ∧ sizeOf c < sizeOf p) →
    (treeWalk c T parent).Nodup ∧
    WalkInv (treeWalk c T parent) S ∧
    (∀ x, x ∈ treeWalk c T parent ↔ (x ∈ T ∨ x ∈ c.reach)) ∧
    (∀ x y, Before T x y → x ∉ c.reach → Before (treeWalk c T parent) x y) ∧
    (∀ p, parent = some p → Before (treeWalk c T parent) p c)
  | .mk bs rs ex, T, parent, S, hnd, hinv, hS, hparent => by
    by_cases hcT : Cell.mk bs rs ex ∈ T
    · have hsub : ∀ x ∈ (Cell.mk bs rs ex).reach, x ∈ T :=
        reach_subset_of_walkInv (sizeOf (Cell.mk bs rs ex)) _ (le_refl _) T S hinv hcT hS
      cases parent with
      | none =>
        have key : treeWalk (Cell.mk bs rs ex) T none = T := by
          simp only [treeWalk]
          rw [if_pos hcT]
        rw [key]
        refine ⟨hnd, hinv, ?_, fun x y h _ => h, ?_⟩
        · intro x
          constructor
          · exact Or.inl
          · rintro (h | h)
            · exact h
            · exact hsub x h
        · intro p hp
          exact Option.noConfusion hp
      | some p =>
        obtain ⟨hpT, hpsz⟩ := hparent p rfl
        have hpr : p ∉ (Cell.mk bs rs ex).reach := not_mem_reach_of_size hpsz
        by_cases hio : T.indexOf (Cell.mk bs rs ex) < T.indexOf p
        · have key : treeWalk (Cell.mk bs rs ex) T (some p)
              = moveToTheEnd T (Cell.mk bs rs ex) := by
            simp only [treeWalk]
            rw [if_pos hcT, if_pos hio]
          rw [key]
          refine ⟨nodup_moveToTheEnd hnd _, walkInv_moveToTheEnd hnd hinv,
            fun x => mem_moveToTheEnd hnd _ x,
            fun x y h hx => before_moveToTheEnd hnd h hx, ?_⟩
          intro q hq
          rw [Option.some.injEq] at hq
          subst hq
          rw [moveToTheEnd_eq _ T hnd]
          exact before_append_of_mem
            (List.mem_filter.mpr ⟨hpT, by simpa using hpr⟩)
            ((mem_ord_iff _ _).mpr (self_mem_reach _))
        · have key : treeWalk (Cell.mk bs rs ex) T (some p) = T := by
            simp only [treeWalk]
            rw [if_pos hcT, if_neg hio]
          rw [key]
          refine ⟨hnd, hinv, ?_, fun x y h _ => h, ?_⟩
          · intro x
            constructor
            · exact Or.inl
            · rintro (h | h)
              · exact h
              · exact hsub x h
          · intro q hq
            rw [Option.some.injEq] at hq
            rw [← hq]
            have hne : p ≠ Cell.mk bs rs ex := by
              intro he
              rw [he] at hpsz
              omega
            rcases before_total hpT hcT hne with h | h
            · exact h
            · exact absurd (h.indexOf_lt hnd) hio
    · have key : treeWalk (Cell.mk bs rs ex) T parent
          = walkList rs (T ++ [Cell.mk bs rs ex]) (Cell.mk bs rs ex) := by
        simp only [treeWalk]
        rw [if_neg hcT]
      rw [key]
      have hnd0 : (T ++ [Cell.mk bs rs ex]).Nodup := by
        rw [List.nodup_append]
        refine ⟨hnd, List.nodup_singleton _, ?_⟩
        intro y hy1 hy2
        simp only [List.mem_singleton] at hy2
        exact hcT (hy2 ▸ hy1)
      have hinv0 : WalkInv (T ++ [Cell.mk bs rs ex]) (Cell.mk bs rs ex :: S) := by
        intro a ha hs b hb
        have haT : a ∈ T := by
          rcases List.mem_append.mp ha with h1 | h1
          · exact h1
          · simp only [List.mem_singleton] at h1
            exact absurd (h1 ▸ List.mem_cons_self _ _) hs
        have haS : a ∉ S := fun h => hs (List.mem_cons_of_mem _ h)
        obtain ⟨hbT, hbef⟩ := hinv a haT haS b hb
        exact ⟨List.mem_append.mpr (Or.inl hbT), hbef.append_left⟩
      have hrs : ∀ r ∈ rs, sizeOf r < sizeOf (Cell.mk bs rs ex) :=
        fun _ hr => sizeOf_mem_refs hr
      obtain ⟨h1, h2, h3, h4, h5⟩ := walkList_spec rs (T ++ [Cell.mk bs rs ex])
        (Cell.mk bs rs ex) S hnd0 hinv0
        (List.mem_append.mpr (Or.inr (List.mem_singleton.mpr rfl))) hrs hS
      refine ⟨h1, ?_, ?_, ?_, ?_⟩
      · intro a ha hs b hb
        by_cases hac : a = Cell.mk bs rs ex
        · subst hac
          rw [Cell.refs] at hb
          have hbr : b ∈ reachList rs :=
            mem_reachList_iff.mpr ⟨b, hb, self_mem_reach b⟩
          exact ⟨(h3 b).mpr (Or.inr hbr), h5 b hb⟩
        · have has : a ∉ Cell.mk bs rs ex :: S := by
            intro h
            rcases List.mem_cons.mp h with h | h
            · exact hac h
            · exact hs h
          exact h2 a ha has b hb
      · intro x
        rw [h3 x, Cell.reach]
        simp only [List.mem_append, List.mem_singleton, List.mem_cons]
        tauto
      · intro x y h hx
        have hx2 : x ∉ reachList rs := by
          intro hm
          exact hx (by rw [Cell.reach]; exact List.mem_cons_of_mem _ hm)
        exact h4 x y (h.append_left) hx2
      · intro q hq
        obtain ⟨hqT, hqsz⟩ := hparent q hq
        have hq0 : Before (T ++ [Cell.mk bs rs ex]) q (Cell.mk bs rs ex) :=
          before_append_of_mem hqT (List.mem_singleton.mpr rfl)
        have hqr : q ∉ reachList rs := by
          intro hm
          obtain ⟨y, hy, hsy⟩ := mem_reachList_size rs q hm
          have := hrs y hy
          omega
        exact h4 q (Cell.mk bs rs ex) hq0 hqr
theorem walkList_spec : ∀ (rs : List Cell) (T : List Cell) (p : Cell)
    (S : List Cell), T.Nodup → WalkInv T (p :: S) → p ∈ T →
    (∀ r ∈ rs, sizeOf r < sizeOf p) → (∀ s ∈ S, sizeOf p < sizeOf s) →
    (walkList rs T p).Nodup ∧
    WalkInv (walkList rs T p) (p :: S) ∧
    (∀ x, x ∈ walkList rs T p ↔ (x ∈ T ∨ x ∈ reachList rs)) ∧
    (∀ x y, Before T x y → x ∉ reachList rs → Before (walkList rs T p) x y) ∧
    (∀ r ∈ rs, Before (walkList rs T p) p r)
  | [], T, p, S, hnd, hinv, hpT, hrs, hS => by
    rw [walkList]
    refine ⟨hnd, hinv, ?_, ?_, ?_⟩
    · intro x
      rw [reachList]
      simp
    · intro x y h _
      exact h
    · intro r hr
      cases hr
  | r :: rest, T, p, S, hnd, hinv, hpT, hrs, hS => by
    rw [walkList]
    have hrp : sizeOf r < sizeOf p := hrs r (List.mem_cons_self _ _)
    obtain ⟨h1, h2, h3, h4, h5⟩ := treeWalk_spec r T (some p) (p :: S) hnd hinv
      (by
        intro s hs
        rcases List.mem_cons.mp hs with rfl | hs2
        · exact hrp
        · have := hS s hs2
          omega)
      (by
        intro q hq
        rw [Option.some.injEq] at hq
        subst hq
        exact ⟨hpT, hrp⟩)
    obtain ⟨g1, g2, g3, g4, g5⟩ := walkList_spec rest (treeWalk r T (some p)) p S
      h1 h2 ((h3 p).mpr (Or.inl hpT))
      (fun y hy => hrs y (List.mem_cons_of_mem _ hy)) hS
    have hpr2 : p ∉ reachList rest := by
      intro hm
      obtain ⟨y, hy, hsy⟩ := mem_reachList_size rest p hm
      have := hrs y (List.mem_cons_of_mem _ hy)
      omega
    refine ⟨g1, g2, ?_, ?_, ?_⟩
    · intro x
      rw [g3 x, h3 x, reachList]
      simp only [List.mem_append]
      tauto
    · intro x y h hx
      rw [reachList] at hx
      simp only [List.mem_append] at hx
      push_neg at hx
      exact g4 x y (h4 x y h hx.1) hx.2
    · intro q hq
      rcases List.mem_cons.mp hq with hq1 | hq2
      · rw [hq1]
        exact g4 p r (h5 p rfl) hpr2
      · exact g5 q hq2
end

/-- Forward-reference invariant of the idealized structural walk: the
order is duplicate-free and every child of a serialized cell sits at a
strictly greater position.  The claim's theorem transfers this to the
faithful hash-keyed walk through the simulation. -/
theorem structural_walk_forward (root : Cell) (i : Nat)
    (hi : i < (topologicalOrderOf root).length) :
    ∀ r ∈ serializeRefIndices (topologicalOrderOf root)
      ((topologicalOrderOf root).get ⟨i, hi⟩),
      i < r ∧ r < (topologicalOrderOf root).length := by
  obtain ⟨hnd, hinv, _, _, _⟩ := treeWalk_spec root [] none []
    List.nodup_nil (fun a ha => absurd ha (List.not_mem_nil a))
    (fun s hs => absurd hs (List.not_mem_nil s))
    (fun p hp => Option.noConfusion hp)
  have hnd2 : (topologicalOrderOf root).Nodup := hnd
  have hinv2 : WalkInv (topologicalOrderOf root) [] := hinv
  intro r hr
  rw [serializeRefIndices] at hr
  obtain ⟨b, hb, hbr⟩ := List.mem_map.mp hr
  have hcT : (topologicalOrderOf root).get ⟨i, hi⟩ ∈ topologicalOrderOf root :=
    (topologicalOrderOf root).get_mem i hi
  obtain ⟨hbT, hbef⟩ := hinv2 _ hcT (List.not_mem_nil _) b hb
  have hio := hbef.indexOf_lt hnd2
  rw [nodup_indexOf_get (topologicalOrderOf root) hnd2 i hi] at hio
  rw [← hbr]
  exact ⟨hio, indexOf_lt_length_cell hbT⟩

theorem nodup_erase_append {T : List Cell} (hnd : T.Nodup) (c : Cell) :
    ((T.erase c) ++ [c]).Nodup := by
  rw [nodup_erase_eq_filter_cell _ T hnd, List.nodup_append]
  refine ⟨hnd.filter _, List.nodup_singleton _, ?_⟩
  intro y hy1 hy2
  have hy3 := (List.mem_filter.mp hy1).2
  simp only [decide_eq_true_eq] at hy3
  simp only [List.mem_singleton] at hy2
  exact hy3 hy2

theorem nodup_append_singleton {T : List Cell} (hnd : T.Nodup) {c : Cell}
    (hc : c ∉ T) : (T ++ [c]).Nodup := by
  rw [List.nodup_append]
  refine ⟨hnd, List.nodup_singleton _, ?_⟩
  intro y hy1 hy2
  simp only [List.mem_singleton] at hy2
  exact hc (hy2 ▸ hy1)

theorem walkInv_push {T S : List Cell} {c : Cell} (hinv : WalkInv T S) :
    WalkInv (T ++ [c]) (c :: S) := by
  intro a ha hs b hb
  have haT : a ∈ T := by
    rcases List.mem_append.mp ha with h1 | h1
    · exact h1
    · simp only [List.mem_singleton] at h1
      exact absurd (h1 ▸ List.mem_cons_self _ _) hs
  have haS : a ∉ S := fun hmem => hs (List.mem_cons_of_mem _ hmem)
  obtain ⟨hbT, hbef⟩ := hinv a haT haS b hb
  exact ⟨List.mem_append.mpr (Or.inl hbT), hbef.append_left⟩

theorem eraseIdx_map {α β : Type} (f : α → β) :
    ∀ (l : List α) (i : Nat), (l.map f).eraseIdx i = (l.eraseIdx i).map f
  | [], _ => rfl
  | _ :: _, 0 => rfl
  | x :: xs, i + 1 => by
    simp only [List.map_cons, List.eraseIdx_cons_succ]
    rw [eraseIdx_map f xs i]

theorem hash_beq_eq {h : Cell → List Nat} {X : List Cell}
    (hinj : ∀ x ∈ X, ∀ y ∈ X, h x = h y → x = y)
    {x y : Cell} (hx : x ∈ X) (hy : y ∈ X) :
    (h x == h y) = (x == y) := by
  by_cases hxy : x = y
  · subst hxy
    rw [beq_self_eq_true, beq_self_eq_true]
  · rw [beq_eq_false_iff_ne.mpr hxy,
      beq_eq_false_iff_ne.mpr (fun he => hxy (hinj x hx y hy he))]

theorem mem_map_hash {h : Cell → List Nat} {X : List Cell}
    (hinj : ∀ x ∈ X, ∀ y ∈ X, h x = h y → x = y)
    {c : Cell} {T : List Cell} (hx : c ∈ X) (hT : ∀ t ∈ T, t ∈ X) :
    h c ∈ T.map h ↔ c ∈ T := by
  constructor
  · intro hm
    obtain ⟨t, ht, hth⟩ := List.mem_map.mp hm
    exact (hinj t (hT t ht) c hx hth) ▸ ht
  · exact fun hm => List.mem_map_of_mem h hm

theorem indexOf_map_hash {h : Cell → List Nat} {X : List Cell}
    (hinj : ∀ x ∈ X, ∀ y ∈ X, h x = h y → x = y) {c : Cell} (hx : c ∈ X) :
    ∀ (T : List Cell), (∀ t ∈ T, t ∈ X) →
      (T.map h).indexOf (h c) = T.indexOf c
  | [], _ => rfl
  | t :: ts, hT => by
    rw [List.map_cons, List.indexOf_cons, List.indexOf_cons,
      hash_beq_eq hinj (hT t (List.mem_cons_self _ _)) hx]
    cases hb : (t == c) with
    | true => rfl
    | false =>
      simp only [cond_false]
      rw [indexOf_map_hash hinj hx ts (fun y hy => hT y (List.mem_cons_of_mem _ hy))]

theorem get?_indexOf_cell {c : Cell} :
    ∀ {T : List Cell}, c ∈ T → T.get? (T.indexOf c) = some c
  | x :: t, hm => by
    by_cases hxc : x = c
    · subst hxc
      rw [List.indexOf_cons, beq_self_eq_true]
      rfl
    · rw [List.indexOf_cons, beq_eq_false_iff_ne.mpr hxc]
      simp only [cond_false]
      have hct : c ∈ t := by
        rcases List.mem_cons.mp hm with he | ht
        · exact absurd he.symm hxc
        · exact ht
      exact get?_indexOf_cell hct

theorem erase_eq_eraseIdx_cell {c : Cell} :
    ∀ {T : List Cell}, c ∈ T → T.erase c = T.eraseIdx (T.indexOf c)
  | x :: t, hm => by
    by_cases hxc : x = c
    · subst hxc
      rw [List.erase_cons_head, List.indexOf_cons, beq_self_eq_true]
      rfl
    · rw [List.erase_cons_tail (by simpa using hxc), List.indexOf_cons,
        beq_eq_false_iff_ne.mpr hxc]
      simp only [cond_false]
      have hct : c ∈ t := by
        rcases List.mem_cons.mp hm with he | ht
        · exact absurd he.symm hxc
        · exact ht
      rw [List.eraseIdx_cons_succ, erase_eq_eraseIdx_cell hct]

theorem map_fst_map_pair (h : Cell → List Nat) :
    ∀ (T : List Cell),
      (T.map (fun t => (h t, t))).map Prod.fst = T.map h
  | [] => rfl
  | t :: ts => by
    simp only [List.map_cons, List.map_map]
    rfl

theorem hashIndex_map_mem {h : Cell → List Nat} {X : List Cell}
    (hinj : ∀ x ∈ X, ∀ y ∈ X, h x = h y → x = y)
    {c : Cell} {T : List Cell} (hx : c ∈ X) (hT : ∀ t ∈ T, t ∈ X)
    (hc : c ∈ T) :
    hashIndex (T.map (fun t => (h t, t))) (h c) = some (T.indexOf c) := by
  rw [hashIndex, map_fst_map_pair,
    if_pos ((mem_map_hash hinj hx hT).mpr hc),
    indexOf_map_hash hinj hx T hT]

mutual
/-- Simulation of the relocation: on a hash-keyed state whose keys come
from a hash injective on `X`, `moveToTheEndH` computes exactly the pairing
of the structural `moveToTheEnd` (and in particular never hits the
dead undefined-lookup branch), with fuel the size of the moved cell. -/
theorem moveH_sim (h : Cell → List Nat) (X : List Cell)
    (hinj : ∀ x ∈ X, ∀ y ∈ X, h x = h y → x = y) :
    ∀ (fuel : Nat) (c : Cell) (T : List Cell),
      sizeOf c ≤ fuel → T.Nodup → (∀ t ∈ T, t ∈ X) →
      (∀ x ∈ c.reach, x ∈ X) → (∀ x ∈ c.reach, x ∈ T) →
      moveToTheEndH h fuel (T.map (fun t => (h t, t))) (h c)
        = some ((moveToTheEnd T c).map (fun t => (h t, t)))
  | 0, c, T, hf, _, _, _, _ => by
    cases c with
    | mk bs rs ex =>
      rw [Cell.mk.sizeOf_spec] at hf
      omega
  | fuel + 1, .mk bs rs ex, T, hf, hnd, hTX, hcX, hcT => by
    have hcXm : Cell.mk bs rs ex ∈ X := hcX _ (self_mem_reach _)
    have hcTm : Cell.mk bs rs ex ∈ T := hcT _ (self_mem_reach _)
    have h2 : (T.map (fun t => (h t, t))).get? (T.indexOf (Cell.mk bs rs ex))
        = some (h (Cell.mk bs rs ex), Cell.mk bs rs ex) := by
      rw [List.get?_map, get?_indexOf_cell hcTm, Option.map_some']
    rw [moveToTheEndH]
    simp only [hashIndex_map_mem hinj hcXm hTX hcTm, h2, Cell.refs]
    rw [eraseIdx_map, ← erase_eq_eraseIdx_cell hcTm]
    have h3 : (T.erase (Cell.mk bs rs ex)).map (fun t => (h t, t))
          ++ [(h (Cell.mk bs rs ex), Cell.mk bs rs ex)]
        = ((T.erase (Cell.mk bs rs ex)) ++ [Cell.mk bs rs ex]).map
            (fun t => (h t, t)) := by
      rw [List.map_append]
      rfl
    rw [h3, moveToTheEnd]
    rw [Cell.mk.sizeOf_spec] at hf
    refine moveListH_sim h X hinj fuel rs _ (by omega)
      (nodup_erase_append hnd _) ?_ ?_ ?_
    · intro t ht
      rcases List.mem_append.mp ht with h1 | h1
      · exact hTX t (List.mem_of_mem_erase h1)
      · simp only [List.mem_singleton] at h1
        exact h1 ▸ hcXm
    · intro r hr x hx
      have hrr : r ∈ (Cell.mk bs rs ex).refs := by
        rw [Cell.refs]
        exact hr
      exact hcX x (reach_closed _ r x (refs_mem_reach hrr) hx)
    · intro r hr x hx
      have hrr : r ∈ (Cell.mk bs rs ex).refs := by
        rw [Cell.refs]
        exact hr
      have hxc : x ∈ (Cell.mk bs rs ex).reach :=
        reach_closed _ r x (refs_mem_reach hrr) hx
      by_cases hxe : x = Cell.mk bs rs ex
      · exact List.mem_append.mpr (Or.inr (by simp [hxe]))
      · refine List.mem_append.mpr (Or.inl ?_)
        rw [nodup_erase_eq_filter_cell _ T hnd]
        exact List.mem_filter.mpr ⟨hcT x hxc, by simpa using hxe⟩
theorem moveListH_sim (h : Cell → List Nat) (X : List Cell)
    (hinj : ∀ x ∈ X, ∀ y ∈ X, h x = h y → x = y) :
    ∀ (fuel : Nat) (rs : List Cell) (T : List Cell),
      sizeOf rs ≤ fuel → T.Nodup → (∀ t ∈ T, t ∈ X) →
      (∀ r ∈ rs, ∀ x ∈ r.reach, x ∈ X) → (∀ r ∈ rs, ∀ x ∈ r.reach, x ∈ T) →
      moveListH h fuel (T.map (fun t => (h t, t))) rs
        = some ((moveList T rs).map (fun t => (h t, t)))
  | 0, [], T, hf, _, _, _, _ => by
    rw [List.nil.sizeOf_spec] at hf
    omega
  | 0, r :: rest, T, hf, _, _, _, _ => by
    rw [List.cons.sizeOf_spec] at hf
    omega
  | fuel + 1, [], T, _, _, _, _, _ => by
    rw [moveListH, moveList]
  | fuel + 1, r :: rest, T, hf, hnd, hTX, hrX, hrT => by
    rw [List.cons.sizeOf_spec] at hf
    have h1 := moveH_sim h X hinj fuel r T (by omega) hnd hTX
      (hrX r (List.mem_cons_self _ _)) (hrT r (List.mem_cons_self _ _))
    rw [moveListH]
    simp only [h1]
    rw [moveList]
    refine moveListH_sim h X hinj fuel rest (moveToTheEnd T r) (by omega)
      (nodup_moveToTheEnd hnd r) ?_ ?_ ?_
    · intro t ht
      rcases (mem_moveToTheEnd hnd r t).mp ht with h2 | h2
      · exact hTX t h2
      · exact hrX r (List.mem_cons_self _ _) t h2
    · intro r2 hr2 x hx
      exact hrX r2 (List.mem_cons_of_mem _ hr2) x hx
    · intro r2 hr2 x hx
      exact (mem_moveToTheEnd hnd r x).mpr
        (Or.inl (hrT r2 (List.mem_cons_of_mem _ hr2) x hx))
end

theorem sizeOf_cell_pos (c : Cell) : 1 ≤ sizeOf c := by
  cases c with
  | mk bs rs ex =>
    rw [Cell.mk.sizeOf_spec]
    omega

theorem sizeOf_cellList_pos : ∀ (l : List Cell), 1 ≤ sizeOf l
  | [] => by
    rw [List.nil.sizeOf_spec]
  | x :: xs => by
    rw [List.cons.sizeOf_spec]
    omega

mutual
/-- Simulation of the walk: with a hash injective on `X` and a state whose
cells and reach stay inside `X`, `treeWalkH` computes exactly the pairing
of the structural `treeWalk`, with fuel the size of the visited cell. -/
theorem treeH_sim (h : Cell → List Nat) (X : List Cell)
    (hinj : ∀ x ∈ X, ∀ y ∈ X, h x = h y → x = y) :
    ∀ (fuel : Nat) (c : Cell) (T : List Cell) (parent : Option Cell)
      (parentHash : Option (List Nat)) (S : List Cell),
      parentHash = parent.map h →
      sizeOf c < fuel → T.Nodup → WalkInv T S →
      (∀ s ∈ S, sizeOf c < sizeOf s) →
      (∀ p, parent = some p → p ∈ T ∧ sizeOf c < sizeOf p) →
      (∀ t ∈ T, t ∈ X) → (∀ x ∈ c.reach, x ∈ X) →
      treeWalkH h fuel c (T.map (fun t => (h t, t))) parentHash
        = some ((treeWalk c T parent).map (fun t => (h t, t)))
  | 0, c, T, parent, parentHash, S, _, hf, _, _, _, _, _, _ => by
    omega
  | fuel + 1, .mk bs rs ex, T, parent, parentHash, S, hph, hf, hnd, hinvT,
      hS, hpar, hTX, hcX => by
    have hcXm : Cell.mk bs rs ex ∈ X := hcX _ (self_mem_reach _)
    have hnew : Cell.mk bs rs ex ∉ T →
        walkListH h fuel rs
            ((T.map (fun t => (h t, t)))
              ++ [(h (Cell.mk bs rs ex), Cell.mk bs rs ex)])
            (h (Cell.mk bs rs ex))
          = some ((walkList rs (T ++ [Cell.mk bs rs ex])
              (Cell.mk bs rs ex)).map (fun t => (h t, t))) := by
      intro hcT
      have hmap : (T.map (fun t => (h t, t)))
            ++ [(h (Cell.mk bs rs ex), Cell.mk bs rs ex)]
          = ((T ++ [Cell.mk bs rs ex]).map (fun t => (h t, t))) := by
        rw [List.map_append]
        rfl
      have hf2 : sizeOf (Cell.mk bs rs ex) < fuel + 1 := hf
      rw [Cell.mk.sizeOf_spec] at hf2
      rw [hmap]
      refine walkListH_sim h X hinj fuel rs (T ++ [Cell.mk bs rs ex])
        (Cell.mk bs rs ex) S (by omega) (nodup_append_singleton hnd hcT)
        (walkInv_push hinvT)
        (List.mem_append.mpr (Or.inr (List.mem_singleton.mpr rfl)))
        (fun r hr => sizeOf_mem_refs hr) hS ?_ ?_
      · intro t ht
        rcases List.mem_append.mp ht with h1 | h1
        · exact hTX t h1
        · simp only [List.mem_singleton] at h1
          exact h1 ▸ hcXm
      · intro r hr x hx
        have hrr : r ∈ (Cell.mk bs rs ex).refs := by
          rw [Cell.refs]
          exact hr
        exact hcX x (reach_closed _ r x (refs_mem_reach hrr) hx)
    cases parent with
    | none =>
      have hph2 : parentHash = none := hph
      subst hph2
      have hunf : treeWalkH h (fuel + 1) (Cell.mk bs rs ex)
            (T.map (fun t => (h t, t))) none
          = (if h (Cell.mk bs rs ex)
                ∈ (T.map (fun t => (h t, t))).map Prod.fst then
              some (T.map (fun t => (h t, t)))
            else
              walkListH h fuel rs
                ((T.map (fun t => (h t, t)))
                  ++ [(h (Cell.mk bs rs ex), Cell.mk bs rs ex)])
                (h (Cell.mk bs rs ex))) := rfl
      rw [hunf, map_fst_map_pair]
      by_cases hcT : Cell.mk bs rs ex ∈ T
      · rw [if_pos ((mem_map_hash hinj hcXm hTX).mpr hcT)]
        have skey : treeWalk (Cell.mk bs rs ex) T none = T := by
          simp only [treeWalk]
          rw [if_pos hcT]
        rw [skey]
      · rw [if_neg (fun hmem => hcT ((mem_map_hash hinj hcXm hTX).mp hmem))]
        have skey : treeWalk (Cell.mk bs rs ex) T none
            = walkList rs (T ++ [Cell.mk bs rs ex]) (Cell.mk bs rs ex) := by
          simp only [treeWalk]
          rw [if_neg hcT]
        rw [skey]
        exact hnew hcT
    | some p =>
      obtain ⟨hpT, hpsz⟩ := hpar p rfl
      have hph2 : parentHash = some (h p) := hph
      subst hph2
      have hunf : treeWalkH h (fuel + 1) (Cell.mk bs rs ex)
            (T.map (fun t => (h t, t))) (some (h p))
          = (if h (Cell.mk bs rs ex)
                ∈ (T.map (fun t => (h t, t))).map Prod.fst then
              if gtOpt (hashIndex (T.map (fun t => (h t, t))) (h p))
                  (hashIndex (T.map (fun t => (h t, t)))
                    (h (Cell.mk bs rs ex))) then
                moveToTheEndH h fuel (T.map (fun t => (h t, t)))
                  (h (Cell.mk bs rs ex))
              else some (T.map (fun t => (h t, t)))
            else
              walkListH h fuel rs
                ((T.map (fun t => (h t, t)))
                  ++ [(h (Cell.mk bs rs ex), Cell.mk bs rs ex)])
                (h (Cell.mk bs rs ex))) := rfl
      rw [hunf, map_fst_map_pair]
      by_cases hcT : Cell.mk bs rs ex ∈ T
      · rw [if_pos ((mem_map_hash hinj hcXm hTX).mpr hcT)]
        have hsub : ∀ x ∈ (Cell.mk bs rs ex).reach, x ∈ T :=
          reach_subset_of_walkInv (sizeOf (Cell.mk bs rs ex)) _ (le_refl _)
            T S hinvT hcT hS
        rw [hashIndex_map_mem hinj (hTX p hpT) hTX hpT,
          hashIndex_map_mem hinj hcXm hTX hcT, gtOpt]
        by_cases hio : T.indexOf (Cell.mk bs rs ex) < T.indexOf p
        · rw [if_pos (by simpa using hio)]
          have skey : treeWalk (Cell.mk bs rs ex) T (some p)
              = moveToTheEnd T (Cell.mk bs rs ex) := by
            simp only [treeWalk]
            rw [if_pos hcT, if_pos hio]
          rw [skey]
          exact moveH_sim h X hinj fuel _ T (by omega) hnd hTX hcX hsub
        · rw [if_neg (by simpa using hio)]
          have skey : treeWalk (Cell.mk bs rs ex) T (some p) = T := by
            simp only [treeWalk]
            rw [if_pos hcT, if_neg hio]
          rw [skey]
      · rw [if_neg (fun hmem => hcT ((mem_map_hash hinj hcXm hTX).mp hmem))]
        have skey : treeWalk (Cell.mk bs rs ex) T (some p)
            = walkList rs (T ++ [Cell.mk bs rs ex]) (Cell.mk bs rs ex) := by
          simp only [treeWalk]
          rw [if_neg hcT]
        rw [skey]
        exact hnew hcT
theorem walkListH_sim (h : Cell → List Nat) (X : List Cell)
    (hinj : ∀ x ∈ X, ∀ y ∈ X, h x = h y → x = y) :
    ∀ (fuel : Nat) (rs : List Cell) (T : List Cell) (p : Cell)
      (S : List Cell),
      sizeOf rs ≤ fuel → T.Nodup → WalkInv T (p :: S) → p ∈ T →
      (∀ r ∈ rs, sizeOf r < sizeOf p) → (∀ s ∈ S, sizeOf p < sizeOf s) →
      (∀ t ∈ T, t ∈ X) → (∀ r ∈ rs, ∀ x ∈ r.reach, x ∈ X) →
      walkListH h fuel rs (T.map (fun t => (h t, t))) (h p)
        = some ((walkList rs T p).map (fun t => (h t, t)))
  | 0, rs, T, p, S, hf, _, _, _, _, _, _, _ => by
    have := sizeOf_cellList_pos rs
    omega
  | fuel + 1, [], T, p, S, _, _, _, _, _, _, _, _ => by
    rw [walkListH, walkList]
  | fuel + 1, r :: rest, T, p, S, hf, hnd, hinvT, hpT, hrs, hS, hTX,
      hrX => by
    rw [List.cons.sizeOf_spec] at hf
    have hc1 := sizeOf_cell_pos r
    have hl1 := sizeOf_cellList_pos rest
    have hstack : ∀ s ∈ p :: S, sizeOf r < sizeOf s := by
      intro s hs
      rcases List.mem_cons.mp hs with rfl | hs2
      · exact hrs r (List.mem_cons_self _ _)
      · have h1 := hS s hs2
        have h2 := hrs r (List.mem_cons_self _ _)
        omega
    have hparc : ∀ q, (some p : Option Cell) = some q →
        q ∈ T ∧ sizeOf r < sizeOf q := by
      intro q hq
      rw [Option.some.injEq] at hq
      exact ⟨hq ▸ hpT, hq ▸ hrs r (List.mem_cons_self _ _)⟩
    have h1 := treeH_sim h X hinj fuel r T (some p) (some (h p)) (p :: S)
      rfl (by omega) hnd hinvT hstack hparc hTX
      (hrX r (List.mem_cons_self _ _))
    rw [walkListH]
    simp only [h1]
    rw [walkList]
    obtain ⟨g1, g2, g3, g4, g5⟩ := treeWalk_spec r T (some p) (p :: S)
      hnd hinvT hstack hparc
    refine walkListH_sim h X hinj fuel rest (treeWalk r T (some p)) p S
      (by omega) g1 g2 ((g3 p).mpr (Or.inl hpT))
      (fun y hy => hrs y (List.mem_cons_of_mem _ hy)) hS ?_ ?_
    · intro t ht
      rcases (g3 t).mp ht with h2 | h2
      · exact hTX t h2
      · exact hrX r (List.mem_cons_self _ _) t h2
    · intro r2 hr2 x hx
      exact hrX r2 (List.mem_cons_of_mem _ hr2) x hx
end

mutual
/-- Fuel is only a recursion bound: a completed relocation stays the same
under more fuel. -/
theorem moveH_mono (h : Cell → List Nat) :
    ∀ (fuel : Nat) (T : List (List Nat × Cell)) (t : List Nat)
      (R : List (List Nat × Cell)),
      moveToTheEndH h fuel T t = some R →
      moveToTheEndH h (fuel + 1) T t = some R
  | 0, T, t, R, hr => by
    rw [moveToTheEndH] at hr
    cases hr
  | fuel + 1, T, t, R, hr => by
    rw [moveToTheEndH] at hr ⊢
    cases hhi : hashIndex T t with
    | none =>
      simp only [hhi] at hr
      exact Option.noConfusion hr
    | some i =>
      simp only [hhi] at hr ⊢
      cases hg : T.get? i with
      | none =>
        simp only [hg] at hr
        exact Option.noConfusion hr
      | some d =>
        simp only [hg] at hr ⊢
        exact moveListH_mono h fuel _ _ _ hr
theorem moveListH_mono (h : Cell → List Nat) :
    ∀ (fuel : Nat) (T : List (List Nat × Cell)) (rs : List Cell)
      (R : List (List Nat × Cell)),
      moveListH h fuel T rs = some R → moveListH h (fuel + 1) T rs = some R
  | 0, T, rs, R, hr => by
    rw [moveListH] at hr
    cases hr
  | fuel + 1, T, [], R, hr => by
    rw [moveListH] at hr ⊢
    exact hr
  | fuel + 1, T, r :: rest, R, hr => by
    rw [moveListH] at hr ⊢
    cases hm : moveToTheEndH h fuel T (h r) with
    | none =>
      simp only [hm] at hr
      exact Option.noConfusion hr
    | some T1 =>
      simp only [hm] at hr
      simp only [moveH_mono h fuel T (h r) T1 hm]
      exact moveListH_mono h fuel T1 rest R hr
end

mutual
theorem treeH_mono (h : Cell → List Nat) :
    ∀ (fuel : Nat) (c : Cell) (T : List (List Nat × Cell))
      (parentHash : Option (List Nat)) (R : List (List Nat × Cell)),
      treeWalkH h fuel c T parentHash = some R →
      treeWalkH h (fuel + 1) c T parentHash = some R
  | 0, c, T, parentHash, R, hr => by
    have h0 : treeWalkH h 0 c T parentHash = none := rfl
    rw [h0] at hr
    cases hr
  | fuel + 1, c, T, parentHash, R, hr => by
    cases parentHash with
    | none =>
      have h1 : treeWalkH h (fuel + 1) c T none
          = (if h c ∈ T.map Prod.fst then some T
             else walkListH h fuel c.refs (T ++ [(h c, c)]) (h c)) := rfl
      have h2 : treeWalkH h (fuel + 1 + 1) c T none
          = (if h c ∈ T.map Prod.fst then some T
             else walkListH h (fuel + 1) c.refs (T ++ [(h c, c)]) (h c)) := rfl
      rw [h1] at hr
      rw [h2]
      by_cases hm : h c ∈ T.map Prod.fst
      · rw [if_pos hm] at hr ⊢
        exact hr
      · rw [if_neg hm] at hr ⊢
        exact walkListH_mono h fuel _ _ _ _ hr
    | some ph =>
      have h1 : treeWalkH h (fuel + 1) c T (some ph)
          = (if h c ∈ T.map Prod.fst then
              if gtOpt (hashIndex T ph) (hashIndex T (h c)) then
                moveToTheEndH h fuel T (h c)
              else some T
             else walkListH h fuel c.refs (T ++ [(h c, c)]) (h c)) := rfl
      have h2 : treeWalkH h (fuel + 1 + 1) c T (some ph)
          = (if h c ∈ T.map Prod.fst then
              if gtOpt (hashIndex T ph) (hashIndex T (h c)) then
                moveToTheEndH h (fuel + 1) T (h c)
              else some T
             else walkListH h (fuel + 1) c.refs (T ++ [(h c, c)]) (h c)) := rfl
      rw [h1] at hr
      rw [h2]
      by_cases hm : h c ∈ T.map Prod.fst
      · rw [if_pos hm] at hr ⊢
        by_cases hg : gtOpt (hashIndex T ph) (hashIndex T (h c))
        · rw [if_pos hg] at hr ⊢
          exact moveH_mono h fuel T (h c) R hr
        · rw [if_neg hg] at hr ⊢
          exact hr
      · rw [if_neg hm] at hr ⊢
        exact walkListH_mono h fuel _ _ _ _ hr
theorem walkListH_mono (h : Cell → List Nat) :
    ∀ (fuel : Nat) (rs : List Cell) (T : List (List Nat × Cell))
      (ph : List Nat) (R : List (List Nat × Cell)),
      walkListH h fuel rs T ph = some R →
      walkListH h (fuel + 1) rs T ph = some R
  | 0, rs, T, ph, R, hr => by
    rw [walkListH] at hr
    cases hr
  | fuel + 1, [], T, ph, R, hr => by
    rw [walkListH] at hr ⊢
    exact hr
  | fuel + 1, r :: rest, T, ph, R, hr => by
    rw [walkListH] at hr ⊢
    cases hm : treeWalkH h fuel r T (some ph) with
    | none =>
      simp only [hm] at hr
      exact Option.noConfusion hr
    | some T1 =>
      simp only [hm] at hr
      simp only [treeH_mono h fuel r T (some ph) T1 hm]
      exact walkListH_mono h fuel rest T1 ph R hr
end

theorem treeH_mono_le (h : Cell → List Nat) {f1 f2 : Nat} (hle : f1 ≤ f2)
    (c : Cell) (T : List (List Nat × Cell)) (parentHash : Option (List Nat))
    (R : List (List Nat × Cell)) (hr : treeWalkH h f1 c T parentHash = some R) :
    treeWalkH h f2 c T parentHash = some R := by
  obtain ⟨k, rfl⟩ := Nat.le.dest hle
  clear hle
  induction k with
  | zero => exact hr
  | succ n ih => exact treeH_mono h (f1 + n) c T parentHash R ih

/-- C1: forward-reference invariant of the serializer.  For every hash
function injective on the root's sub-DAG (the collision-freedom of
SHA-256 that the hash-keyed deduplication relies on), the hash-keyed walk
`treeWalkH` started as `treeWalk(this, [], {})` completes (fuel the size
of the root suffices), and every order it ever returns places each cell
strictly before all of its children: every reference index that
`serializeForBoc` writes (the `cellsIndex` entry of the child's hash) is
defined, strictly greater than the index of the cell containing the
reference, and a valid index of the order. -/
theorem C1_treeWalk_forward (h : Cell → List Nat) (root : Cell)
    (hinj : ∀ x ∈ root.reach, ∀ y ∈ root.reach, h x = h y → x = y) :
    (∃ T', treeWalkH h (sizeOf root + 1) root [] none = some T') ∧
    ∀ (fuel : Nat) (T' : List (List Nat × Cell)),
      treeWalkH h fuel root [] none = some T' →
      ∀ (i : Nat) (hi : i < T'.length),
        ∀ ri ∈ serializeRefIndicesH h T' (T'.get ⟨i, hi⟩).2,
          ∃ r, ri = some r ∧ i < r ∧ r < T'.length := by
  have hsim : ∀ F, sizeOf root < F →
      treeWalkH h F root [] none
        = some ((treeWalk root [] none).map (fun t => (h t, t))) := by
    intro F hF
    exact treeH_sim h root.reach hinj F root [] none none [] rfl hF
      List.nodup_nil (fun a ha => absurd ha (List.not_mem_nil a))
      (fun s hs => absurd hs (List.not_mem_nil s))
      (fun p hp => Option.noConfusion hp)
      (fun t ht => absurd ht (List.not_mem_nil t))
      (fun x hx => hx)
  constructor
  · exact ⟨_, hsim (sizeOf root + 1) (by omega)⟩
  · intro fuel T' hrun i hi ri hri
    have hF : treeWalkH h (max fuel (sizeOf root + 1)) root [] none
        = some T' :=
      treeH_mono_le h (Nat.le_max_left _ _) root [] none T' hrun
    have hsim2 := hsim (max fuel (sizeOf root + 1))
      (by
        have := Nat.le_max_right fuel (sizeOf root + 1)
        omega)
    rw [hF] at hsim2
    have hT2 : T' = (treeWalk root [] none).map (fun t => (h t, t)) :=
      (Option.some.injEq _ _).mp hsim2
    subst hT2
    obtain ⟨hnd, hinv, hmem3, _, _⟩ := treeWalk_spec root [] none []
      List.nodup_nil (fun a ha => absurd ha (List.not_mem_nil a))
      (fun s hs => absurd hs (List.not_mem_nil s))
      (fun p hp => Option.noConfusion hp)
    have hlen : ((treeWalk root [] none).map (fun t => (h t, t))).length
        = (treeWalk root [] none).length := List.length_map _ _
    have hi2 : i < (treeWalk root [] none).length := by
      rw [hlen] at hi
      exact hi
    rw [serializeRefIndicesH, List.get_map] at hri
    obtain ⟨b, hb, hbr⟩ := List.mem_map.mp hri
    have hcT : (treeWalk root [] none).get ⟨i, hi2⟩ ∈ treeWalk root [] none :=
      List.get_mem _ i hi2
    obtain ⟨hbT, hbef⟩ := hinv _ hcT (List.not_mem_nil _) b hb
    have hio := hbef.indexOf_lt hnd
    rw [nodup_indexOf_get _ hnd i hi2] at hio
    have hsubX : ∀ t ∈ treeWalk root [] none, t ∈ root.reach := by
      intro t ht
      rcases (hmem3 t).mp ht with h1 | h1
      · exact absurd h1 (List.not_mem_nil t)
      · exact h1
    have hhiv : hashIndex
          ((treeWalk root [] none).map (fun t => (h t, t))) (h b)
        = some ((treeWalk root [] none).indexOf b) :=
      hashIndex_map_mem hinj (hsubX b hbT) hsubX hbT
    refine ⟨(treeWalk root [] none).indexOf b, ?_, hio, ?_⟩
    · rw [← hbr, hhiv]
    · rw [hlen]
      exact indexOf_lt_length_cell hbT

/-- Witness for C1 at a concrete two-cell DAG with hash = bit length of
the cell (injective on its two cells): the walk completes at fuel 5, the
root sits at index 0, and its single reference resolves to index 1,
strictly greater and in range. -/
theorem C1_witness :
    ∃ r, (some 1 : Option Nat) = some r ∧ 0 < r ∧
      r < [(([0] : List Nat), Cell.mk [] [Cell.mk [true] [] false] false),
           ([1], Cell.mk [true] [] false)].length :=
  (C1_treeWalk_forward (fun c => [c.bits.length])
      (Cell.mk [] [Cell.mk [true] [] false] false) (by decide)).2 5
    [(([0] : List Nat), Cell.mk [] [Cell.mk [true] [] false] false),
     ([1], Cell.mk [true] [] false)]
    (by decide) 0 (by decide) (some 1) (by decide)
end TonWeb
